import Mathlib

/-
Verification of the CSC_417_Project2 discretization pipeline.

The pipeline stages are embedded shallowly:
  * `argmin.ts`  — streaming statistics accumulator (`numInc`, `numDec`,
    `getStdDev`), the best-split search (`argmin`) and the partition
    driver (`calcSplits`).
  * `sortlastcol.ts` — the four sorting strategies (`mergeSort`,
    `bubbleSort`, `selectionSort`, `bogoSort`), `isSorted`, and the
    command-line dispatch (`processVals`).
  * `Pipe3.ts` and the Lua variant — the table model, `band`, `mark`
    and the recursive driver `cuts`.

JavaScript numbers are modelled as exact rationals (ℚ); `Math.sqrt` is
modelled as an explicit function parameter `sq : ℚ → ℚ`, so statements
quantified over `sq` hold in particular for the real square root.
Concrete evaluations instantiate `sq` with the identity `sqId`; whenever
a counterexample depends on a square-root value being nonzero, the real
`Math.sqrt` agrees (the square root of a positive number is positive).
-/

/-- The accumulator record of `argmin.ts`:
`{ count, mean, M2, sd, max, min }`.  `count` is integer-valued in every
run of the program (it is only ever incremented and decremented by 1),
so it is carried as an `ℤ` and cast to `ℚ` at each division. -/
structure Aggr where
  count : ℤ
  mean : ℚ
  M2 : ℚ
  sd : ℚ
  max : ℚ
  min : ℚ

/-- The `10**-32` guard added to the variance denominator in `argmin.ts`. -/
def eps : ℚ := 1 / 10 ^ 32

/-- A concrete stand-in for `Math.sqrt` used in closed evaluations
(the identity function). -/
def sqId : ℚ → ℚ := fun q => q

/-- The initial accumulator of `getStdDev`:
`{ count: 0, mean: 0, M2: 0, sd: 0, max: -1 * 10**32, min: 10**32 }`. -/
def initAggr : Aggr := ⟨0, 0, 0, 0, -(10 ^ 32 : ℚ), (10 ^ 32 : ℚ)⟩

/-- `numInc` from `argmin.ts` (Welford insert).  The source mutates the
record field by field; the updated fields here use exactly the same
expressions and order (`count` is incremented first, `mean` uses the new
count, `M2` the new mean, `sd` is assigned only when the new count is at
least 2 and otherwise keeps its previous value). -/
def numInc (sq : ℚ → ℚ) (a : Aggr) (v : ℚ) : Aggr :=
  let count := a.count + 1
  let delta := v - a.mean
  let mean := a.mean + delta / (count : ℚ)
  let M2 := a.M2 + delta * (v - mean)
  let mx := if v > a.max then v else a.max
  let mn := if v < a.min then v else a.min
  let sd := if 2 ≤ count then sq (M2 / ((count : ℚ) - 1 + eps)) else a.sd
  ⟨count, mean, M2, sd, mx, mn⟩

/-- `numDec` from `argmin.ts` (inverse Welford update).  The source
returns immediately when `aggr.count == 1`; otherwise it decrements the
count (even from 0), updates `mean` and `M2` with the decremented count,
leaves `max`/`min` untouched, and refreshes `sd` only when the new count
is at least 2. -/
def numDec (sq : ℚ → ℚ) (a : Aggr) (v : ℚ) : Aggr :=
  if a.count = 1 then a
  else
    let count := a.count - 1
    let delta := v - a.mean
    let mean := a.mean - delta / (count : ℚ)
    let M2 := a.M2 - delta * (v - mean)
    let sd := if 2 ≤ count then sq (M2 / ((count : ℚ) - 1 + eps)) else a.sd
    ⟨count, mean, M2, sd, a.max, a.min⟩

/-- `getStdDev( lo, hi )` from `argmin.ts`: folds `numInc` over the
column values at indices `lo, …, hi-1` (the source reads the global
`lastCol`, passed here as `xs`). -/
def getStdDev (sq : ℚ → ℚ) (xs : List ℚ) (lo hi : ℕ) : Aggr :=
  (List.range' lo (hi - lo)).foldl (fun a i => numInc sq a (xs.getD i 0)) initAggr

/-- Inserting values only: the count after a fold of `numInc` is the
starting count plus the number of values inserted. -/
theorem count_foldl_numInc (sq : ℚ → ℚ) (vs : List ℚ) (a : Aggr) :
    (vs.foldl (numInc sq) a).count = a.count + vs.length := by
  induction vs generalizing a with
  | nil => simp
  | cons v vs ih =>
    simp only [List.foldl_cons, ih, numInc, List.length_cons]
    push_cast
    ring

/-- Claim C5 counterexample: calling `numDec` on the pristine
accumulator (count = 0) with value 1 is not a no-op: the count drops to
-1 and the mean jumps from 0 to 1.  (Only `count == 1` is guarded in the
source.) -/
theorem numDec_on_empty_changes_state :
    (numDec sqId initAggr 1).count = -1 ∧
    (numDec sqId initAggr 1).mean = 1 ∧
    initAggr.count = 0 ∧ initAggr.mean = 0 := by
  refine ⟨by decide, ?_, rfl, rfl⟩
  simp [numDec, initAggr, sqId]

/-- Claim C5 (amended): `numDec` is a no-op exactly on accumulators with
`count = 1`; on a `count = 0` accumulator it decrements the count to -1
and replaces the mean by the removed value. -/
theorem numDec_noop_iff_count_one (sq : ℚ → ℚ) (a : Aggr) (v : ℚ) :
    (a.count = 1 → numDec sq a v = a) ∧
    (a.count = 0 → (numDec sq a v).count = -1 ∧ (numDec sq a v).mean = v) := by
  constructor
  · intro h
    simp [numDec, h]
  · intro h
    simp only [numDec, h]
    norm_num
    rw [div_neg, div_one]
    ring

/-- Witness for the amended C5 theorem: after a single insert the count
is 1 and removing any value leaves the accumulator unchanged; on the
initial (count 0) accumulator the count drops to -1. -/
theorem numDec_noop_iff_count_one_witness :
    (numDec sqId (numInc sqId initAggr 5) 3 = numInc sqId initAggr 5) ∧
    (numDec sqId initAggr 7).count = -1 := by
  refine ⟨(numDec_noop_iff_count_one sqId (numInc sqId initAggr 5) 3).1 ?_,
    ((numDec_noop_iff_count_one sqId initAggr 7).2 ?_).1⟩
  · simp [numInc, initAggr]
  · rfl

/-- Claim C6 counterexample: insert 0, insert 2, then remove 2.  The
resulting accumulator has `count = 1 < 2` but its `sd` field still holds
the value computed while the count was 2 (here `2 / (1 + ε)` under the
identity square-root model; under the real `Math.sqrt` it is
`sqrt(2/(1+ε)) ≈ 1.414`), not 0: `numDec` does not reset `sd` when the
count drops below 2. -/
theorem sd_not_zero_after_remove :
    (numDec sqId (numInc sqId (numInc sqId initAggr 0) 2) 2).count = 1 ∧
    (numDec sqId (numInc sqId (numInc sqId initAggr 0) 2) 2).sd ≠ 0 := by
  constructor
  · rfl
  · simp [numDec, numInc, initAggr, sqId, eps]
    norm_num

/-- Claim C6 (amended): in any state reached from the initial
accumulator by insertions alone, `count < 2` implies `sd = 0`; and
whenever a `numDec` leaves the count below 2 it leaves `sd` unchanged
(so a nonzero `sd` computed at count 2 survives a removal). -/
theorem sd_zero_when_count_small (sq : ℚ → ℚ) :
    (∀ vs : List ℚ, (vs.foldl (numInc sq) initAggr).count < 2 →
      (vs.foldl (numInc sq) initAggr).sd = 0) ∧
    (∀ (a : Aggr) (v : ℚ), (numDec sq a v).count < 2 →
      (numDec sq a v).sd = a.sd) := by
  constructor
  · intro vs h
    rw [count_foldl_numInc] at h
    simp only [initAggr] at h
    match vs, h with
    | [], _ => rfl
    | [v], _ =>
      simp [numInc, initAggr]
    | v :: w :: vs, h =>
      exfalso
      simp only [List.length_cons] at h
      omega
  · intro a v h
    by_cases h1 : a.count = 1
    · simp [numDec, h1]
    · simp only [numDec, h1, if_false] at h ⊢
      have : ¬ (2 ≤ a.count - 1) := by omega
      simp [this]

/-- Witness for the amended C6 theorem: a single insert leaves
`count = 1 < 2` and `sd = 0`; a remove that lands at count 1 leaves `sd`
where it was. -/
theorem sd_zero_when_count_small_witness :
    ((([5] : List ℚ).foldl (numInc sqId) initAggr).sd = 0) ∧
    ((numDec sqId (numInc sqId initAggr 7) 3).sd = (numInc sqId initAggr 7).sd) := by
  refine ⟨(sd_zero_when_count_small sqId).1 [5] ?_, (sd_zero_when_count_small sqId).2 (numInc sqId initAggr 7) 3 ?_⟩
  · decide
  · decide

/-- Sum of squares of a list of rationals. -/
def sqsum (S : List ℚ) : ℚ := (S.map (fun x => x ^ 2)).sum

/-- The relation between an accumulator and the multiset of values it
currently holds (represented as a list): the count is the number of
held values, the mean is their arithmetic mean, and `M2` is the raw
second moment `Σ x² - (Σ x)² / n`.  (For the empty list both divisions
are by zero, which ℚ evaluates to 0, matching `initAggr`.) -/
def Good (a : Aggr) (S : List ℚ) : Prop :=
  a.count = S.length ∧
  a.mean = S.sum / (S.length : ℚ) ∧
  a.M2 = sqsum S - S.sum ^ 2 / (S.length : ℚ)

theorem good_initAggr : Good initAggr [] := by
  refine ⟨rfl, ?_, ?_⟩ <;> simp [initAggr, sqsum]

theorem numInc_count (sq : ℚ → ℚ) (a : Aggr) (v : ℚ) :
    (numInc sq a v).count = a.count + 1 := rfl

theorem numInc_mean (sq : ℚ → ℚ) (a : Aggr) (v : ℚ) :
    (numInc sq a v).mean = a.mean + (v - a.mean) / ((a.count + 1 : ℤ) : ℚ) := rfl

theorem numInc_M2 (sq : ℚ → ℚ) (a : Aggr) (v : ℚ) :
    (numInc sq a v).M2
      = a.M2 + (v - a.mean) * (v - (a.mean + (v - a.mean) / ((a.count + 1 : ℤ) : ℚ))) := rfl

theorem numDec_count (sq : ℚ → ℚ) (a : Aggr) (v : ℚ) (h : a.count ≠ 1) :
    (numDec sq a v).count = a.count - 1 := by
  simp only [numDec, if_neg h]

theorem numDec_mean (sq : ℚ → ℚ) (a : Aggr) (v : ℚ) (h : a.count ≠ 1) :
    (numDec sq a v).mean = a.mean - (v - a.mean) / ((a.count - 1 : ℤ) : ℚ) := by
  simp only [numDec, if_neg h]

theorem numDec_M2 (sq : ℚ → ℚ) (a : Aggr) (v : ℚ) (h : a.count ≠ 1) :
    (numDec sq a v).M2
      = a.M2 - (v - a.mean) * (v - (a.mean - (v - a.mean) / ((a.count - 1 : ℤ) : ℚ))) := by
  simp only [numDec, if_neg h]

/-- The Welford insert `numInc` preserves `Good`, with the new value
prepended to the held list. -/
theorem good_numInc (sq : ℚ → ℚ) (a : Aggr) (S : List ℚ) (v : ℚ)
    (h : Good a S) : Good (numInc sq a v) (v :: S) := by
  obtain ⟨hc, hm, h2⟩ := h
  rcases S with _ | ⟨w, S⟩
  · simp only [List.length_nil, Nat.cast_zero, List.sum_nil, zero_div, div_zero] at hc hm h2
    refine ⟨?_, ?_, ?_⟩ <;>
      simp [numInc, hc, hm, h2, sqsum]
  · have hA : ((S.length : ℚ) + 1) ≠ 0 := by positivity
    have hB : ((S.length : ℚ) + 1 + 1) ≠ 0 := by positivity
    refine ⟨?_, ?_, ?_⟩
    · rw [numInc_count, hc]
      simp only [List.length_cons]
      push_cast
      ring
    · rw [numInc_mean, hc, hm]
      simp only [List.sum_cons, List.length_cons]
      push_cast
      field_simp
      ring
    · rw [numInc_M2, hc, hm, h2]
      simp only [List.sum_cons, List.length_cons, sqsum, List.map_cons]
      push_cast
      field_simp
      ring

/-- The inverse Welford update `numDec` preserves `Good` when the
removed value is held and at least two values are held, with the value
erased from the held list. -/
theorem good_numDec (sq : ℚ → ℚ) (a : Aggr) (S : List ℚ) (v : ℚ)
    (hv : v ∈ S) (hlen : 2 ≤ S.length) (h : Good a S) :
    Good (numDec sq a v) (S.erase v) := by
  obtain ⟨hc, hm, h2⟩ := h
  have hperm : S.Perm (v :: S.erase v) := List.perm_cons_erase hv
  have hle : (S.erase v).length + 1 = S.length := by
    have := hperm.length_eq
    simpa using this.symm
  have hsum : S.sum = v + (S.erase v).sum := by
    have := hperm.sum_eq
    simpa using this
  have hsq : sqsum S = v ^ 2 + sqsum (S.erase v) := by
    have := (hperm.map (fun x => x ^ 2)).sum_eq
    simpa [sqsum] using this
  have hguard : a.count ≠ 1 := by
    rw [hc]
    have : 2 ≤ (S.length : ℤ) := by exact_mod_cast hlen
    omega
  have hn2 : (2 : ℚ) ≤ (S.length : ℚ) := by exact_mod_cast hlen
  have hn0 : (S.length : ℚ) ≠ 0 := by
    intro h
    rw [h] at hn2
    norm_num at hn2
  have hn1 : (S.length : ℚ) - 1 ≠ 0 := by
    intro h
    have : (S.length : ℚ) = 1 := by linarith
    rw [this] at hn2
    norm_num at hn2
  have hcast : ((S.erase v).length : ℚ) = (S.length : ℚ) - 1 := by
    rw [← hle]
    push_cast
    ring
  have hsumE : (S.erase v).sum = S.sum - v := by
    rw [hsum]
    ring
  have hsqE : sqsum (S.erase v) = sqsum S - v ^ 2 := by
    rw [hsq]
    ring
  refine ⟨?_, ?_, ?_⟩
  · rw [numDec_count sq a v hguard, hc]
    have : ((S.erase v).length : ℤ) = (S.length : ℤ) - 1 := by exact_mod_cast hcast
    omega
  · rw [numDec_mean sq a v hguard, hc, hm, hsumE, hcast]
    push_cast
    field_simp
    ring
  · rw [numDec_M2 sq a v hguard, hc, hm, h2, hsqE, hsumE, hcast]
    push_cast
    field_simp
    ring

/-- The operations an accumulator trace is built from. -/
inductive AccOp where
  | ins (v : ℚ)
  | rem (v : ℚ)

/-- Dispatch one trace operation to `numInc` or `numDec`. -/
def applyOp (sq : ℚ → ℚ) (a : Aggr) : AccOp → Aggr
  | .ins v => numInc sq a v
  | .rem v => numDec sq a v

/-- Run a trace of insert/remove operations from the initial accumulator. -/
def runOps (sq : ℚ → ℚ) (ops : List AccOp) : Aggr :=
  ops.foldl (applyOp sq) initAggr

/-- The list of values held after running a trace from held list `S`:
inserts prepend, removes erase one occurrence. -/
def heldFrom : List ℚ → List AccOp → List ℚ
  | S, [] => S
  | S, .ins v :: ops => heldFrom (v :: S) ops
  | S, .rem v :: ops => heldFrom (S.erase v) ops

/-- A trace is valid from held list `S` when every remove happens while
its value is held and at least two values are held (so the source's
`count == 1` guard never fires and the removal is meaningful). -/
def validFromB : List ℚ → List AccOp → Bool
  | _, [] => true
  | S, .ins v :: ops => validFromB (v :: S) ops
  | S, .rem v :: ops =>
    decide (v ∈ S) && decide (2 ≤ S.length) && validFromB (S.erase v) ops

theorem good_foldl (sq : ℚ → ℚ) :
    ∀ (ops : List AccOp) (S : List ℚ) (a : Aggr), Good a S →
      validFromB S ops = true →
      Good (ops.foldl (applyOp sq) a) (heldFrom S ops) := by
  intro ops
  induction ops with
  | nil => intro S a h _; exact h
  | cons op ops ih =>
    intro S a h hv
    cases op with
    | ins v =>
      exact ih (v :: S) _ (good_numInc sq a S v h) hv
    | rem v =>
      simp only [validFromB, Bool.and_eq_true, decide_eq_true_eq] at hv
      exact ih (S.erase v) _ (good_numDec sq a S v hv.1.1 hv.1.2 h) hv.2

/-- Shift identity for the centered second moment. -/
theorem sum_sq_shift (S : List ℚ) (c : ℚ) :
    (S.map (fun x => (x - c) ^ 2)).sum
      = sqsum S - 2 * c * S.sum + S.length * c ^ 2 := by
  induction S with
  | nil => simp [sqsum]
  | cons w S ih =>
    simp only [List.map_cons, List.sum_cons, ih, sqsum, List.length_cons]
    push_cast
    ring

/-- The `ε` in the variance denominator changes the sample variance by
at most a 1e-9 relative error. -/
theorem welford_var_close (T n : ℚ) (hT : 0 ≤ T) (hn : 2 ≤ n) :
    |T / (n - 1 + eps) - T / (n - 1)| ≤ T / (n - 1) / 10 ^ 9 := by
  have hq1 : (1 : ℚ) ≤ n - 1 := by linarith
  have hqpos : (0 : ℚ) < n - 1 := by linarith
  have hq0 : n - 1 ≠ 0 := ne_of_gt hqpos
  have hepspos : (0 : ℚ) < eps := by norm_num [eps]
  have hqe : (0 : ℚ) < n - 1 + eps := by linarith
  have hqe0 : n - 1 + eps ≠ 0 := ne_of_gt hqe
  have hle2 : T / (n - 1 + eps) ≤ T / (n - 1) := by
    apply div_le_div_of_nonneg_left hT hqpos
    linarith
  have hdiff : T / (n - 1) - T / (n - 1 + eps) = T / (n - 1) * (eps / (n - 1 + eps)) := by
    field_simp
    ring
  rw [abs_sub_comm, abs_of_nonneg (by linarith), hdiff]
  have hfrac : eps / (n - 1 + eps) ≤ 1 / 10 ^ 9 := by
    rw [div_le_div_iff₀ hqe (by norm_num)]
    have heq : eps * 10 ^ 9 = 1 / 10 ^ 23 := by norm_num [eps]
    rw [heq]
    have h23 : (1 : ℚ) / 10 ^ 23 ≤ 1 := by norm_num
    linarith
  have hTq : 0 ≤ T / (n - 1) := by positivity
  calc T / (n - 1) * (eps / (n - 1 + eps)) ≤ T / (n - 1) * (1 / 10 ^ 9) :=
        mul_le_mul_of_nonneg_left hfrac hTq
    _ = T / (n - 1) / 10 ^ 9 := by ring

/-- Claim C3: for every interleaving of insert/remove operations that is
valid (each remove happens while its value is held and at least two
values are held) and leaves `count >= 2`, the accumulator's count is the
size of the held multiset, its mean is the exact arithmetic mean of the
held values, and its variance `M2 / (count - 1 + eps)` equals the
directly computed sample variance up to the stated relative
floating-point tolerance of 1e-9 (exactly: the two differ by at most
`svar / 10^9`, since `eps = 10^-32`). -/
theorem accumulator_tracks_held_values (sq : ℚ → ℚ) (ops : List AccOp)
    (hvalid : validFromB [] ops = true)
    (hcount : 2 ≤ (runOps sq ops).count) :
    (runOps sq ops).count = (heldFrom [] ops).length ∧
    (runOps sq ops).mean = (heldFrom [] ops).sum / ((heldFrom [] ops).length : ℚ) ∧
    |(runOps sq ops).M2 / (((runOps sq ops).count : ℚ) - 1 + eps) -
        ((heldFrom [] ops).map
          (fun x => (x - (heldFrom [] ops).sum / ((heldFrom [] ops).length : ℚ)) ^ 2)).sum /
          (((heldFrom [] ops).length : ℚ) - 1)| ≤
      ((heldFrom [] ops).map
          (fun x => (x - (heldFrom [] ops).sum / ((heldFrom [] ops).length : ℚ)) ^ 2)).sum /
          (((heldFrom [] ops).length : ℚ) - 1) / 10 ^ 9 := by
  obtain ⟨hc, hm, h2⟩ := good_foldl sq ops [] initAggr good_initAggr hvalid
  rw [runOps] at hcount ⊢
  refine ⟨hc, hm, ?_⟩
  have hlen : 2 ≤ (heldFrom [] ops).length := by
    rw [hc] at hcount
    exact_mod_cast hcount
  have hn2 : (2 : ℚ) ≤ ((heldFrom [] ops).length : ℚ) := by exact_mod_cast hlen
  have hn0 : ((heldFrom [] ops).length : ℚ) ≠ 0 := by
    intro h
    rw [h] at hn2
    norm_num at hn2
  have hT : ((heldFrom [] ops).map
      (fun x => (x - (heldFrom [] ops).sum / ((heldFrom [] ops).length : ℚ)) ^ 2)).sum
      = (ops.foldl (applyOp sq) initAggr).M2 := by
    rw [sum_sq_shift, h2]
    field_simp
    ring
  have hTnonneg : 0 ≤ ((heldFrom [] ops).map
      (fun x => (x - (heldFrom [] ops).sum / ((heldFrom [] ops).length : ℚ)) ^ 2)).sum := by
    apply List.sum_nonneg
    intro x hx
    simp only [List.mem_map] at hx
    obtain ⟨y, _, hy⟩ := hx
    rw [← hy]
    positivity
  have hcQ : (((ops.foldl (applyOp sq) initAggr).count : ℚ))
      = ((heldFrom [] ops).length : ℚ) := by
    rw [hc]
    norm_cast
  rw [hcQ, ← hT]
  exact welford_var_close _ _ hTnonneg hn2

/-- Witness for the C3 theorem: the trace insert 2, insert 4, insert 6,
remove 4 is valid and ends with count 2; the held values are `[6, 2]`. -/
theorem accumulator_tracks_held_values_witness :
    validFromB [] [AccOp.ins 2, AccOp.ins 4, AccOp.ins 6, AccOp.rem 4] = true ∧
    2 ≤ (runOps sqId [AccOp.ins 2, AccOp.ins 4, AccOp.ins 6, AccOp.rem 4]).count ∧
    ((runOps sqId [AccOp.ins 2, AccOp.ins 4, AccOp.ins 6, AccOp.rem 4]).count
      = (heldFrom [] [AccOp.ins 2, AccOp.ins 4, AccOp.ins 6, AccOp.rem 4]).length) := by
  refine ⟨by decide, by decide, ?_⟩
  exact (accumulator_tracks_held_values sqId _ (by decide) (by decide)).1

/-- `getTotalVariance` from `calcSplits` in `argmin.ts`: the weighted
blend of the two partitions' standard deviations, with the `0.0001`
guard on the total count. -/
def getTotalVariance (a b : Aggr) : ℚ :=
  let count : ℚ := (a.count : ℚ) + (b.count : ℚ) + 1 / 10000
  ((a.count : ℚ) / count) * a.sd + ((b.count : ℚ) / count) * b.sd

/-- The inner scan of `argmin` over the candidate split indices.  The
loop state is the pair of accumulators (mutated in the source via
`numInc`/`numDec`), the currently recorded best index (`cut`, which the
source leaves `undefined` until first assignment, modelled as an
`Option`), and the best cost so far. -/
def argminLoop (sq : ℚ → ℚ) (xs : List ℚ) (minBinSize : ℕ) (minRise : ℚ) :
    Aggr → Aggr → Option ℕ → ℚ → List ℕ → Option ℕ × ℚ
  | _, _, cut, best, [] => (cut, best)
  | below, above, cut, best, k :: ks =>
    let value := xs.getD k 0
    let b := numInc sq below value
    let a := numDec sq above value
    if (minBinSize : ℤ) ≤ b.count ∧ (minBinSize : ℤ) ≤ a.count ∧
        minRise < b.max - b.min ∧ minRise < a.max - a.min then
      let tmp := getTotalVariance b a * (21 / 20)
      if tmp < best then argminLoop sq xs minBinSize minRise b a (some k) tmp ks
      else argminLoop sq xs minBinSize minRise b a cut best ks
    else argminLoop sq xs minBinSize minRise b a cut best ks

/-- `argmin( min, max )` from `argmin.ts`.  If the range is too small
the loop body is skipped and `cut` stays `undefined`, so the returned
`cut + 1` is `NaN`; a `NaN` result (no split) is modelled as `none`.
`numRows` is the length of the full column, as in the source where
`aboveSplitAggr = getStdDev(min, numRows)` and
`best = aboveSplitAggr.sd`. -/
def argmin (sq : ℚ → ℚ) (xs : List ℚ) (minBinSize : ℕ) (minRise : ℚ)
    (min max : ℕ) : Option ℕ :=
  if 2 * minBinSize < max - min then
    let aboveSplitAggr := getStdDev sq xs min xs.length
    let belowSplitAggr := getStdDev sq xs 0 0
    let best := aboveSplitAggr.sd
    ((argminLoop sq xs minBinSize minRise belowSplitAggr aboveSplitAggr
        none best (List.range' min (max - min))).1).map (· + 1)
  else none

/-- The state of the `below` accumulator of `argmin` just after the scan
has processed indices `min, …, s-1`. -/
def belowState (sq : ℚ → ℚ) (xs : List ℚ) (min s : ℕ) : Aggr :=
  (List.range' min (s - min)).foldl (fun a i => numInc sq a (xs.getD i 0)) initAggr

/-- The state of the `above` accumulator of `argmin` just after the scan
has processed indices `min, …, s-1`. -/
def aboveState (sq : ℚ → ℚ) (xs : List ℚ) (min s : ℕ) : Aggr :=
  (List.range' min (s - min)).foldl (fun a i => numDec sq a (xs.getD i 0))
    (getStdDev sq xs min xs.length)

/-- Candidate index `k` passes the acceptance test of `argmin`: both
partitions have at least `minBinSize` elements and both spans exceed
`minRise`, evaluated on the accumulator states just after the scan
processed `k`. -/
def acceptedAt (sq : ℚ → ℚ) (xs : List ℚ) (minBinSize : ℕ) (minRise : ℚ)
    (min k : ℕ) : Prop :=
  (minBinSize : ℤ) ≤ (belowState sq xs min (k + 1)).count ∧
  (minBinSize : ℤ) ≤ (aboveState sq xs min (k + 1)).count ∧
  minRise < (belowState sq xs min (k + 1)).max - (belowState sq xs min (k + 1)).min ∧
  minRise < (aboveState sq xs min (k + 1)).max - (aboveState sq xs min (k + 1)).min

/-- The cost `argmin` assigns to candidate index `k`:
`getTotalVariance(below, above) * 1.05` on the states just after the
scan processed `k`. -/
def costAt (sq : ℚ → ℚ) (xs : List ℚ) (min k : ℕ) : ℚ :=
  getTotalVariance (belowState sq xs min (k + 1)) (aboveState sq xs min (k + 1)) * (21 / 20)

theorem belowState_min (sq : ℚ → ℚ) (xs : List ℚ) (min : ℕ) :
    belowState sq xs min min = getStdDev sq xs 0 0 := by
  simp [belowState, getStdDev]

theorem aboveState_min (sq : ℚ → ℚ) (xs : List ℚ) (min : ℕ) :
    aboveState sq xs min min = getStdDev sq xs min xs.length := by
  simp [aboveState]

theorem belowState_succ (sq : ℚ → ℚ) (xs : List ℚ) (min s : ℕ) (h : min ≤ s) :
    belowState sq xs min (s + 1) = numInc sq (belowState sq xs min s) (xs.getD s 0) := by
  have h1 : s + 1 - min = (s - min) + 1 := by omega
  have h2 : min + (s - min) = s := by omega
  rw [belowState, belowState, h1, List.range'_1_concat, List.foldl_append, h2]
  simp

theorem aboveState_succ (sq : ℚ → ℚ) (xs : List ℚ) (min s : ℕ) (h : min ≤ s) :
    aboveState sq xs min (s + 1) = numDec sq (aboveState sq xs min s) (xs.getD s 0) := by
  have h1 : s + 1 - min = (s - min) + 1 := by omega
  have h2 : min + (s - min) = s := by omega
  rw [aboveState, aboveState, h1, List.range'_1_concat, List.foldl_append, h2]
  simp

/-- Loop invariant of the `argmin` scan after processing indices
`min, …, s-1`.  If no cut is recorded, `best` is still the whole-range
standard deviation `b0` and every accepted candidate seen so far costs
at least `b0`.  If `cut = some k0`, then `k0` is an accepted candidate
whose cost is the current `best`, beats `b0`, is minimal among all
accepted candidates seen so far, and strictly beats every earlier
accepted candidate (so ties keep the leftmost). -/
def ArgInv (sq : ℚ → ℚ) (xs : List ℚ) (mbs : ℕ) (mr : ℚ)
    (min s : ℕ) (cut : Option ℕ) (best : ℚ) : Prop :=
  match cut with
  | none =>
    best = (getStdDev sq xs min xs.length).sd ∧
    ∀ k, min ≤ k → k < s → acceptedAt sq xs mbs mr min k →
      (getStdDev sq xs min xs.length).sd ≤ costAt sq xs min k
  | some k₀ =>
    min ≤ k₀ ∧ k₀ < s ∧ acceptedAt sq xs mbs mr min k₀ ∧
    best = costAt sq xs min k₀ ∧
    costAt sq xs min k₀ < (getStdDev sq xs min xs.length).sd ∧
    (∀ j, min ≤ j → j < s → acceptedAt sq xs mbs mr min j →
      costAt sq xs min k₀ ≤ costAt sq xs min j) ∧
    (∀ j, min ≤ j → j < k₀ → acceptedAt sq xs mbs mr min j →
      costAt sq xs min k₀ < costAt sq xs min j)

theorem argInv_step_record (sq : ℚ → ℚ) (xs : List ℚ) (mbs : ℕ) (mr : ℚ)
    (min s : ℕ) (cut : Option ℕ) (best : ℚ) (hs : min ≤ s)
    (h : ArgInv sq xs mbs mr min s cut best)
    (hacc : acceptedAt sq xs mbs mr min s)
    (hlt : costAt sq xs min s < best) :
    ArgInv sq xs mbs mr min (s + 1) (some s) (costAt sq xs min s) := by
  have hb0 : costAt sq xs min s < (getStdDev sq xs min xs.length).sd := by
    match cut, h with
    | none, ⟨hbest, _⟩ => rw [hbest] at hlt; exact hlt
    | some k₀, ⟨_, _, _, hbest, hk₀b, _, _⟩ =>
      rw [hbest] at hlt
      exact lt_trans hlt hk₀b
  have hmin : ∀ j, min ≤ j → j < s → acceptedAt sq xs mbs mr min j →
      costAt sq xs min s < costAt sq xs min j := by
    intro j hj1 hj2 hj3
    match cut, h with
    | none, ⟨hbest, hall⟩ =>
      rw [hbest] at hlt
      exact lt_of_lt_of_le hlt (hall j hj1 hj2 hj3)
    | some k₀, ⟨_, _, _, hbest, _, hall, _⟩ =>
      rw [hbest] at hlt
      exact lt_of_lt_of_le hlt (hall j hj1 hj2 hj3)
  refine ⟨hs, by omega, hacc, rfl, hb0, ?_, ?_⟩
  · intro j hj1 hj2 hj3
    rcases Nat.lt_succ_iff_lt_or_eq.mp hj2 with hj2 | rfl
    · exact le_of_lt (hmin j hj1 hj2 hj3)
    · exact le_refl _
  · intro j hj1 hj2 hj3
    exact hmin j hj1 hj2 hj3

theorem argInv_step_keep (sq : ℚ → ℚ) (xs : List ℚ) (mbs : ℕ) (mr : ℚ)
    (min s : ℕ) (cut : Option ℕ) (best : ℚ)
    (h : ArgInv sq xs mbs mr min s cut best)
    (hacc : acceptedAt sq xs mbs mr min s)
    (hge : ¬ costAt sq xs min s < best) :
    ArgInv sq xs mbs mr min (s + 1) cut best := by
  push_neg at hge
  match cut, h with
  | none, ⟨hbest, hall⟩ =>
    refine ⟨hbest, ?_⟩
    intro k hk1 hk2 hk3
    rcases Nat.lt_succ_iff_lt_or_eq.mp hk2 with hk2 | rfl
    · exact hall k hk1 hk2 hk3
    · rw [← hbest]
      exact hge
  | some k₀, ⟨h1, h2, h3, hbest, h5, hall, hstrict⟩ =>
    refine ⟨h1, by omega, h3, hbest, h5, ?_, hstrict⟩
    intro j hj1 hj2 hj3
    rcases Nat.lt_succ_iff_lt_or_eq.mp hj2 with hj2 | rfl
    · exact hall j hj1 hj2 hj3
    · rw [← hbest]
      exact hge

theorem argInv_step_skip (sq : ℚ → ℚ) (xs : List ℚ) (mbs : ℕ) (mr : ℚ)
    (min s : ℕ) (cut : Option ℕ) (best : ℚ)
    (h : ArgInv sq xs mbs mr min s cut best)
    (hnacc : ¬ acceptedAt sq xs mbs mr min s) :
    ArgInv sq xs mbs mr min (s + 1) cut best := by
  match cut, h with
  | none, ⟨hbest, hall⟩ =>
    refine ⟨hbest, ?_⟩
    intro k hk1 hk2 hk3
    rcases Nat.lt_succ_iff_lt_or_eq.mp hk2 with hk2 | rfl
    · exact hall k hk1 hk2 hk3
    · exact absurd hk3 hnacc
  | some k₀, ⟨h1, h2, h3, hbest, h5, hall, hstrict⟩ =>
    refine ⟨h1, by omega, h3, hbest, h5, ?_, hstrict⟩
    intro j hj1 hj2 hj3
    rcases Nat.lt_succ_iff_lt_or_eq.mp hj2 with hj2 | rfl
    · exact hall j hj1 hj2 hj3
    · exact absurd hj3 hnacc

theorem argminLoop_spec (sq : ℚ → ℚ) (xs : List ℚ) (mbs : ℕ) (mr : ℚ) (min : ℕ) :
    ∀ (len s : ℕ) (cut : Option ℕ) (best : ℚ), min ≤ s →
      ArgInv sq xs mbs mr min s cut best →
      ArgInv sq xs mbs mr min (s + len)
        (argminLoop sq xs mbs mr (belowState sq xs min s) (aboveState sq xs min s)
          cut best (List.range' s len)).1
        (argminLoop sq xs mbs mr (belowState sq xs min s) (aboveState sq xs min s)
          cut best (List.range' s len)).2 := by
  intro len
  induction len with
  | zero =>
    intro s cut best _ h
    simpa [argminLoop] using h
  | succ len ih =>
    intro s cut best hs h
    rw [List.range'_succ]
    simp only [argminLoop]
    rw [← belowState_succ sq xs min s hs, ← aboveState_succ sq xs min s hs]
    have hsucc : s + (len + 1) = (s + 1) + len := by omega
    rw [hsucc]
    split_ifs with hacc hlt
    · exact ih (s + 1) (some s) _ (by omega)
        (argInv_step_record sq xs mbs mr min s cut best hs h hacc hlt)
    · exact ih (s + 1) cut best (by omega)
        (argInv_step_keep sq xs mbs mr min s cut best h hacc hlt)
    · exact ih (s + 1) cut best (by omega)
        (argInv_step_skip sq xs mbs mr min s cut best h hacc)

/-- Claim C2: with `minBinSize = floor(sqrt(numRows))` and
`minRise = 0.3 * stddev(entire column)` (computed once, before any
recursion), `argmin` over a sorted range records a candidate index only
when both resulting partitions have count at least `minBinSize` and span
strictly more than `minRise`; among candidates it keeps the one of
lowest cost under strict `<` (so ties keep the earliest, and a candidate
must also beat the initial `best`, the whole-range standard deviation
`b0`); it returns the best split index plus one, and it returns the
no-split sentinel (`undefined + 1 = NaN`, modelled `none`) exactly when
the range guard fails or no accepted candidate costs less than `b0`. -/
theorem argmin_selects_min_cost_split (sq : ℚ → ℚ) (xs : List ℚ)
    (minBinSize : ℕ) (minRise : ℚ) (min max : ℕ)
    (hsorted : xs.Sorted (· ≤ ·))
    (hmbs : minBinSize = Nat.sqrt xs.length)
    (hmr : minRise = (3 / 10 : ℚ) * (getStdDev sq xs 0 xs.length).sd) :
    (∀ c, argmin sq xs minBinSize minRise min max = some c →
      ∃ k, c = k + 1 ∧ min ≤ k ∧ k < max ∧
        acceptedAt sq xs minBinSize minRise min k ∧
        costAt sq xs min k < (getStdDev sq xs min xs.length).sd ∧
        (∀ j, min ≤ j → j < max → acceptedAt sq xs minBinSize minRise min j →
          costAt sq xs min k ≤ costAt sq xs min j) ∧
        (∀ j, min ≤ j → j < k → acceptedAt sq xs minBinSize minRise min j →
          costAt sq xs min k < costAt sq xs min j)) ∧
    (argmin sq xs minBinSize minRise min max = none ↔
      (max - min ≤ 2 * minBinSize ∨
        ∀ k, min ≤ k → k < max → acceptedAt sq xs minBinSize minRise min k →
          (getStdDev sq xs min xs.length).sd ≤ costAt sq xs min k)) := by
  by_cases hguard : 2 * minBinSize < max - min
  · have hminmax : min ≤ max := by omega
    have hInv := argminLoop_spec sq xs minBinSize minRise min (max - min) min none
      (getStdDev sq xs min xs.length).sd (le_refl min)
      (by
        refine ⟨rfl, ?_⟩
        intro k hk1 hk2 _
        omega)
    rw [belowState_min, aboveState_min] at hInv
    have hmm : min + (max - min) = max := by omega
    rw [hmm] at hInv
    have hargm : argmin sq xs minBinSize minRise min max =
        ((argminLoop sq xs minBinSize minRise (getStdDev sq xs 0 0)
          (getStdDev sq xs min xs.length) none (getStdDev sq xs min xs.length).sd
          (List.range' min (max - min))).1).map (· + 1) := by
      rw [argmin, if_pos hguard]
    constructor
    · intro c hc
      rw [hargm] at hc
      rcases hr : (argminLoop sq xs minBinSize minRise (getStdDev sq xs 0 0)
          (getStdDev sq xs min xs.length) none (getStdDev sq xs min xs.length).sd
          (List.range' min (max - min))).1 with _ | k₀
      · rw [hr] at hc
        exact Option.noConfusion hc
      · rw [hr] at hc
        have hc2 : k₀ + 1 = c := Option.some.inj hc
        rw [hr] at hInv
        obtain ⟨h1, h2, h3, _, h5, h6, h7⟩ := hInv
        exact ⟨k₀, hc2.symm, h1, h2, h3, h5, h6, h7⟩
    · constructor
      · intro hnone
        rw [hargm] at hnone
        rcases hr : (argminLoop sq xs minBinSize minRise (getStdDev sq xs 0 0)
            (getStdDev sq xs min xs.length) none (getStdDev sq xs min xs.length).sd
            (List.range' min (max - min))).1 with _ | k₀
        · rw [hr] at hInv
          exact Or.inr hInv.2
        · rw [hr] at hnone
          exact Option.noConfusion hnone
      · intro hrhs
        rcases hrhs with hrhs | hrhs
        · omega
        · rw [hargm]
          rcases hr : (argminLoop sq xs minBinSize minRise (getStdDev sq xs 0 0)
              (getStdDev sq xs min xs.length) none (getStdDev sq xs min xs.length).sd
              (List.range' min (max - min))).1 with _ | k₀
          · rfl
          · rw [hr] at hInv
            obtain ⟨h1, h2, h3, _, h5, _, _⟩ := hInv
            exact absurd h5 (not_lt.mpr (hrhs k₀ h1 h2 h3))
  · have hargm : argmin sq xs minBinSize minRise min max = none := by
      rw [argmin, if_neg hguard]
    constructor
    · intro c hc
      rw [hargm] at hc
      exact absurd hc (by simp)
    · rw [hargm]
      constructor
      · intro _
        exact Or.inl (by omega)
      · intro _
        rfl

/-- Witness for the C2 theorem at the sorted column `[1, 2, 3]` with the
full range `[0, 3)` (where `minBinSize = floor(sqrt 3) = 1`). -/
theorem argmin_selects_min_cost_split_witness :
    ([1, 2, 3] : List ℚ).Sorted (· ≤ ·) ∧
    (argmin sqId [1, 2, 3] (Nat.sqrt 3)
        ((3 / 10 : ℚ) * (getStdDev sqId [1, 2, 3] 0 3).sd) 0 3 = none ↔
      (3 - 0 ≤ 2 * Nat.sqrt 3 ∨
        ∀ k, 0 ≤ k → k < 3 →
          acceptedAt sqId [1, 2, 3] (Nat.sqrt 3)
            ((3 / 10 : ℚ) * (getStdDev sqId [1, 2, 3] 0 3).sd) 0 k →
          (getStdDev sqId [1, 2, 3] 0 3).sd ≤ costAt sqId [1, 2, 3] 0 k)) := by
  refine ⟨by decide, ?_⟩
  exact (argmin_selects_min_cost_split sqId [1, 2, 3] (Nat.sqrt 3)
    ((3 / 10 : ℚ) * (getStdDev sqId [1, 2, 3] 0 3).sd) 0 3 (by decide) rfl rfl).2

/-- The printing loop of `calcSplits` in `argmin.ts`.  The loop state is
the index `i`, the variables `cut` (initialised to 0) and `prevCut`
(declared but not initialised, modelled as an `Option`).  One iteration:
if `numRows - i > minBinSize`, set `prevCut := cut`, call `argmin`; on a
numeric result `c` print rows `i … c-1` with label `c` and continue at
`i = c` (the source sets `i = cut - 1` and the `for` increments); on a
`NaN` result (`none`) the inner print loop and the `i = cut - 1`
assignment poison `i`, so the loop exits with nothing more printed.
Otherwise the body is skipped and `i` increments.  The returned pair is
the list of printed (row index, appended label) pairs and the final
`prevCut`.  `fuel` bounds the number of iterations; since every
iteration either exits or increases `i`, `numRows + 1` iterations always
suffice. -/
def driverLoop (sq : ℚ → ℚ) (xs : List ℚ) :
    ℕ → ℕ → ℕ → Option ℕ → List (ℕ × ℕ) × Option ℕ
  | 0, _, _, prevCut => ([], prevCut)
  | fuel + 1, i, cut, prevCut =>
    if i < xs.length then
      if Nat.sqrt xs.length < xs.length - i then
        match argmin sq xs (Nat.sqrt xs.length)
          ((3 / 10 : ℚ) * (getStdDev sq xs 0 xs.length).sd) i xs.length with
        | some c =>
          let rest := driverLoop sq xs fuel c c (some cut)
          (((List.range' i (c - i)).map (fun j => (j, c))) ++ rest.1, rest.2)
        | none => ([], some cut)
      else driverLoop sq xs fuel (i + 1) cut prevCut
    else ([], prevCut)

/-- `calcSplits` from `argmin.ts`, as the list of (row index, appended
label) pairs it prints: the main loop starting at `i = 0`, `cut = 0`,
`prevCut` undefined, followed by the final loop printing rows
`prevCut … numRows-1` with label `numRows` (which prints nothing when
`prevCut` is still undefined, because `undefined < numRows` is false in
JavaScript). -/
def calcSplits (sq : ℚ → ℚ) (xs : List ℚ) : List (ℕ × ℕ) :=
  let r := driverLoop sq xs (xs.length + 1) 0 0 none
  r.1 ++ (match r.2 with
    | none => []
    | some p => (List.range' p (xs.length - p)).map (fun j => (j, xs.length)))

/-- Claim C1 (code bug): on the one-row dataset with last-column value 5
the driver prints nothing at all — row 0 is dropped, so the partitions
do not cover `[0, n-1]`.  (`numRows - 0 = 1` is not `> minBinSize = 1`,
so the main loop never runs its body, `prevCut` stays undefined, and the
final loop `for (i = prevCut; i < numRows; …)` never executes because
`undefined < 1` is false.)  For contrast, on the two-row dataset `[3,4]`
both rows are printed exactly once with the single label 2. -/
theorem calcSplits_drops_single_row :
    calcSplits sqId [5] = [] ∧
    calcSplits sqId [3, 4] = [(0, 2), (1, 2)] := by
  have hs : Nat.sqrt 2 = 1 := by norm_num
  refine ⟨rfl, ?_⟩
  simp [calcSplits, driverLoop, argmin, hs]
  rfl

/-- Claim C7 (code bug): a dataset too small to split is supposed to be
emitted whole as a single partition, and for `n = 2` (where
`n ≤ 2 * minBinSize`, so `argmin` reports no split) it is: both rows
appear once with the same label.  But for the too-small dataset `n = 1`
the driver emits nothing: the single row is omitted instead of being
emitted as a one-row partition.  (The literal hypothesis
`n < minBinSize = floor(sqrt(n))` of the claim is unsatisfiable; this
evaluates the Scenario-D reading `n ≤ 2 * minBinSize`.) -/
theorem calcSplits_small_dataset :
    calcSplits sqId [7] = [] ∧
    Nat.sqrt 1 = 1 ∧
    calcSplits sqId [4, 9] = [(0, 2), (1, 2)] := by
  have hs : Nat.sqrt 2 = 1 := by norm_num
  refine ⟨rfl, rfl, ?_⟩
  simp [calcSplits, driverLoop, argmin, hs]
  rfl

/-- The sorting strategies of `sortlastcol.ts` that `processVals` can
dispatch to. -/
inductive SortStrategy where
  | mergeS
  | bubbleS
  | selectionS
  | bogoS
deriving DecidableEq

/-- The argument dispatch of `processVals` in `sortlastcol.ts`,
modelled on the full `process.argv` list (element 0 is the interpreter,
element 1 the script, element 2 the optional user flag).  `none` means
`argsErr()` was called: the usage text is written to stderr and the
process exits with the nonzero status `-1`.  The source first exits on
more than one user argument, then tries `-m` (or no argument at all),
`-b`, `-s`, `-bogo` in order, and otherwise errors. -/
def processVals (args : List String) : Option SortStrategy :=
  if 3 < args.length then none
  else if args.length = 2 ∨ args.getD 2 "" = "-m" then some .mergeS
  else if args.getD 2 "" = "-b" then some .bubbleS
  else if args.getD 2 "" = "-s" then some .selectionS
  else if args.getD 2 "" = "-bogo" then some .bogoS
  else none

/-- The exit status of the sort stage: `process.exit(-1)` from
`argsErr`, or 0 on normal completion. -/
def sortStageExit (args : List String) : ℤ :=
  match processVals args with
  | none => -1
  | some _ => 0

/-- Claim C9: no argument selects the default (merge) sort; each
recognized flag selects exactly its strategy; an unrecognized flag or
more than one extra argument triggers the usage message path with a
nonzero exit status; every dispatching invocation exits with status 0. -/
theorem processVals_dispatch (node script flag : String) (args : List String)
    (hflag : flag ∉ ["-m", "-b", "-s", "-bogo"]) :
    processVals [node, script] = some SortStrategy.mergeS ∧
    processVals [node, script, "-m"] = some SortStrategy.mergeS ∧
    processVals [node, script, "-b"] = some SortStrategy.bubbleS ∧
    processVals [node, script, "-s"] = some SortStrategy.selectionS ∧
    processVals [node, script, "-bogo"] = some SortStrategy.bogoS ∧
    (processVals [node, script, flag] = none ∧
      sortStageExit [node, script, flag] ≠ 0) ∧
    (3 < args.length → processVals args = none ∧ sortStageExit args ≠ 0) ∧
    (∀ st, processVals args = some st → sortStageExit args = 0) := by
  simp only [List.mem_cons, List.not_mem_nil, or_false, not_or] at hflag
  obtain ⟨hm, hb, hs, hbogo⟩ := hflag
  refine ⟨?_, ?_, ?_, ?_, ?_, ⟨?_, ?_⟩, ?_, ?_⟩
  · simp [processVals]
  · simp [processVals]
  · simp [processVals]
  · simp [processVals]
  · simp [processVals]
  · simp [processVals, hm, hb, hs, hbogo]
  · simp [sortStageExit, processVals, hm, hb, hs, hbogo]
  · intro h
    constructor
    · simp [processVals, h]
    · simp [sortStageExit, processVals, h]
  · intro st h
    simp [sortStageExit, h]

/-- Witness for the C9 theorem at the concrete command line
`node sortlastcol.js -q` (unrecognized flag) and a four-element
argument list. -/
theorem processVals_dispatch_witness :
    processVals ["node", "sortlastcol.js"] = some SortStrategy.mergeS ∧
    processVals ["node", "sortlastcol.js", "-q"] = none ∧
    sortStageExit ["node", "sortlastcol.js", "-q"] ≠ 0 ∧
    processVals ["node", "sortlastcol.js", "-m", "x"] = none := by
  have h := processVals_dispatch "node" "sortlastcol.js" "-q"
    ["node", "sortlastcol.js", "-m", "x"] (by decide)
  exact ⟨h.1, h.2.2.2.2.2.1.1, h.2.2.2.2.2.1.2, (h.2.2.2.2.2.2.1 (by decide)).1⟩

/-- The `table` class of `Pipe3.ts`: the raw cell strings plus the
derived `cols` (number of data columns minus the appended one), `c`
(index of the target column) and `rows` fields. -/
structure PTable where
  data : List (List String)
  cols : ℕ
  c : ℕ
  rows : ℕ

/-- `dataSet` from `Pipe3.ts`: `cols = data[0].length - 1`,
`c = cols - 1`, `rows = data.length - 1`. -/
def mkPTable (d : List (List String)) : PTable :=
  { data := d
    cols := (d.headD []).length - 1
    c := (d.headD []).length - 1 - 1
    rows := d.length - 1 }

/-- Reading cell `[i][j]`; a missing cell is JavaScript `undefined`,
which stringifies to `"undefined"` when concatenated. -/
def cellStr (d : List (List String)) (i j : ℕ) : String :=
  (d.getD i []).getD j "undefined"

/-- `band` from `Pipe3.ts`: `".." + data[high][c]` when `low == 1`,
otherwise `data[low][c] + ".." + data[high][c]`.  There is no
open-above case. -/
def pipeBand (t : PTable) (low high : ℕ) : String :=
  if low = 1 then ".." ++ cellStr t.data high t.c
  else cellStr t.data low t.c ++ ".." ++ cellStr t.data high t.c

/-- `mark` from `Pipe3.ts`: computes the band once, then writes it into
column `cols` of every row from `low` to `high` inclusive. -/
def pipeMark (t : PTable) (low high : ℕ) : PTable :=
  let b := pipeBand t low high
  let newData := (List.range' low (high + 1 - low)).foldl
    (fun d i => d.set i ((d.getD i []).set t.cols b)) t.data
  { t with data := newData }

/-- Reading the 1-indexed Lua cell `rows[i][c]`. -/
def cellLua (rows : List (List String)) (i c : ℕ) : String :=
  (rows.getD (i - 1) []).getD (c - 1) "nil"

/-- `band` from the Lua variant (`part_000`): `".." .. rows[hi][c]`
when `lo == 1`, `rows[lo][c] .. ".."` when `hi == most`, and
`rows[lo][c] .. ".." .. rows[hi][c]` otherwise. -/
def luaBand (rows : List (List String)) (c lo hi most : ℕ) : String :=
  if lo = 1 then ".." ++ cellLua rows hi c
  else if hi = most then cellLua rows lo c ++ ".."
  else cellLua rows lo c ++ ".." ++ cellLua rows hi c

theorem getD_set_self_list {α : Type} (l : List α) (i : ℕ) (a d : α)
    (h : i < l.length) : (l.set i a).getD i d = a := by
  rw [List.getD_eq_getElem?_getD, List.getElem?_set_self h]
  rfl

theorem getD_set_ne_list {α : Type} (l : List α) (i j : ℕ) (a d : α)
    (h : i ≠ j) : (l.set i a).getD j d = l.getD j d := by
  rw [List.getD_eq_getElem?_getD, List.getElem?_set_ne h,
    ← List.getD_eq_getElem?_getD]

/-- Rows not written by the mark fold are unchanged. -/
theorem foldl_set_cell_other (b : String) (cols : ℕ) :
    ∀ (L : List ℕ) (d : List (List String)) (i : ℕ), i ∉ L →
      ((L.foldl (fun d j => d.set j ((d.getD j []).set cols b)) d)).getD i []
        = d.getD i [] := by
  intro L
  induction L with
  | nil => intro d i _; rfl
  | cons j L ih =>
    intro d i hni
    simp only [List.mem_cons, not_or] at hni
    rw [List.foldl_cons, ih _ _ hni.2]
    exact getD_set_ne_list d j i _ [] (fun h => hni.1 h.symm)

/-- Every row the mark fold writes ends up holding the band string in
column `cols`. -/
theorem foldl_set_cell_mem (b : String) (cols : ℕ) :
    ∀ (L : List ℕ) (d : List (List String)) (i : ℕ), i ∈ L →
      i < d.length → cols < (d.getD i []).length →
      (((L.foldl (fun d j => d.set j ((d.getD j []).set cols b)) d)).getD i []).getD cols "undefined"
        = b := by
  intro L
  induction L with
  | nil => intro d i h; exact absurd h (List.not_mem_nil i)
  | cons j L ih =>
    intro d i hmem hlen hcols
    rw [List.foldl_cons]
    by_cases hiL : i ∈ L
    · apply ih _ _ hiL
      · rw [List.length_set]
        exact hlen
      · by_cases hij : i = j
        · subst hij
          rw [getD_set_self_list _ _ _ _ hlen]
          simpa using hcols
        · rw [getD_set_ne_list d j i _ [] (fun h => hij h.symm)]
          exact hcols
    · have hij : i = j := by
        rcases List.mem_cons.mp hmem with h | h
        · exact h
        · exact absurd h hiL
      subst hij
      rw [foldl_set_cell_other b cols L _ i hiL]
      rw [getD_set_self_list _ _ _ _ hlen]
      rw [getD_set_self_list _ _ _ _ hcols]

/-- Claim C4 counterexample: the 4-row table with target column
`1,2,3,4` (so `rows = 3`, `c = 1`).  The last partition `[2, 3]` has
`phi = 3 = rows` (the last row), so the claim requires the open-above
label `"3.."`; `Pipe3.ts`'s `band` returns `"3..4"` instead — it has no
open-above case. -/
theorem pipeBand_no_open_above :
    pipeBand (mkPTable [["a", "1", "x"], ["b", "2", "x"], ["c", "3", "x"], ["d", "4", "x"]]) 2 3
      = "3..4" ∧
    "3..4" ≠ "3.." ∧
    (mkPTable [["a", "1", "x"], ["b", "2", "x"], ["c", "3", "x"], ["d", "4", "x"]]).rows = 3 ∧
    cellStr (mkPTable [["a", "1", "x"], ["b", "2", "x"], ["c", "3", "x"], ["d", "4", "x"]]).data 2
      (mkPTable [["a", "1", "x"], ["b", "2", "x"], ["c", "3", "x"], ["d", "4", "x"]]).c = "3" := by
  refine ⟨rfl, by decide, rfl, rfl⟩

/-- Claim C4 (amended): the three-case labelling rule of the claim
(open-below for the first partition, open-above for the last, two-sided
otherwise) is exactly the Lua variant's `band` (whose first row is
index 1 and whose last row is `most`).  `Pipe3.ts`'s `band` implements
only two of the cases: `"..v[high]"` when `low == 1` and
`"v[low]..v[high]"` otherwise — the last partition gets the two-sided
label unless it is also the first.  In both variants the label depends
only on the two boundary cells of the target column, and `mark` writes
it to every row in the partition's inclusive index range. -/
theorem band_label_shapes (rows : List (List String)) (c lo hi most : ℕ)
    (t : PTable) (low high : ℕ) (hlow : 2 ≤ low) :
    (lo = 1 → luaBand rows c lo hi most = ".." ++ cellLua rows hi c) ∧
    (lo ≠ 1 → hi = most → luaBand rows c lo hi most = cellLua rows lo c ++ "..") ∧
    (lo ≠ 1 → hi ≠ most →
      luaBand rows c lo hi most = cellLua rows lo c ++ ".." ++ cellLua rows hi c) ∧
    (pipeBand t low high = cellStr t.data low t.c ++ ".." ++ cellStr t.data high t.c) ∧
    (∀ t₂ : PTable, t₂.c = t.c →
      cellStr t₂.data low t₂.c = cellStr t.data low t.c →
      cellStr t₂.data high t₂.c = cellStr t.data high t.c →
      pipeBand t₂ low high = pipeBand t low high) ∧
    (∀ i, low ≤ i → i ≤ high → i < t.data.length →
      t.cols < (t.data.getD i []).length →
      cellStr (pipeMark t low high).data i t.cols = pipeBand t low high) := by
  have hlow1 : low ≠ 1 := by omega
  refine ⟨?_, ?_, ?_, ?_, ?_, ?_⟩
  · intro h
    simp [luaBand, h]
  · intro h1 h2
    simp [luaBand, h1, h2]
  · intro h1 h2
    simp [luaBand, h1, h2]
  · simp [pipeBand, hlow1]
  · intro t₂ hc h1 h2
    simp only [pipeBand, if_neg hlow1]
    rw [h1, h2]
  · intro i hi1 hi2 hi3 hi4
    rw [pipeMark, cellStr]
    apply foldl_set_cell_mem
    · rw [List.mem_range']
      refine ⟨i - low, ?_, by omega⟩
      omega
    · exact hi3
    · exact hi4

/-- Witness for the amended C4 theorem: on the concrete 4-row table,
the Lua band gives the open-above label `"3.."` for the last partition
`[3, 4]` (1-indexed) while the Pipe3 band gives `"3..4"` for the same
partition `[2, 3]` (0-indexed), and `mark` writes that label into
row 2, column `cols = 2`. -/
theorem band_label_shapes_witness :
    luaBand [["a", "1", "x"], ["b", "2", "x"], ["c", "3", "x"], ["d", "4", "x"]] 2 3 4 4
      = "3.." ∧
    pipeBand (mkPTable [["a", "1", "x"], ["b", "2", "x"], ["c", "3", "x"], ["d", "4", "x"]]) 2 3
      = cellStr (mkPTable [["a", "1", "x"], ["b", "2", "x"], ["c", "3", "x"], ["d", "4", "x"]]).data 2
          (mkPTable [["a", "1", "x"], ["b", "2", "x"], ["c", "3", "x"], ["d", "4", "x"]]).c
        ++ ".." ++
        cellStr (mkPTable [["a", "1", "x"], ["b", "2", "x"], ["c", "3", "x"], ["d", "4", "x"]]).data 3
          (mkPTable [["a", "1", "x"], ["b", "2", "x"], ["c", "3", "x"], ["d", "4", "x"]]).c ∧
    cellStr (pipeMark (mkPTable [["a", "1", "x"], ["b", "2", "x"], ["c", "3", "x"], ["d", "4", "x"]]) 2 3).data 2
      (mkPTable [["a", "1", "x"], ["b", "2", "x"], ["c", "3", "x"], ["d", "4", "x"]]).cols
      = pipeBand (mkPTable [["a", "1", "x"], ["b", "2", "x"], ["c", "3", "x"], ["d", "4", "x"]]) 2 3 := by
  have h := band_label_shapes
    [["a", "1", "x"], ["b", "2", "x"], ["c", "3", "x"], ["d", "4", "x"]] 2 3 4 4
    (mkPTable [["a", "1", "x"], ["b", "2", "x"], ["c", "3", "x"], ["d", "4", "x"]]) 2 3
    (by decide)
  refine ⟨?_, h.2.2.2.1, h.2.2.2.2.2 2 (by decide) (by decide) (by decide) (by decide)⟩
  exact h.2.1 (by decide) rfl

/-- The result of one `cuts` run: normal completion or a thrown
`TypeError` (reading a property of `undefined`). -/
inductive CutsOut where
  | ok
  | crash
deriving DecidableEq

/-- Like `Math.sqrt` (the parameter `sq`), JavaScript's string-to-number
coercion `Number()` is modelled as an explicit function parameter
`toNum : String → Option ℚ` of the `cuts` embedding (`none` = `NaN`):
the general theorems below quantify over every coercion, so they apply
in particular to the real `Number()` semantics.  Concrete runs
instantiate the parameter with `toNumM` below, which implements
`Number()` on the optional-sign decimal integer literals appearing in
this file's concrete tables (`Number("-1") = -1`, `Number("0") = 0`,
`Number("2") = 2`); other strings are mapped to `none`, so `toNumM` is
only ever applied to such literals. -/
def digitsVal (cs : List Char) : Option ℕ :=
  if cs = [] then none
  else cs.foldl
    (fun acc c => acc.bind (fun n => if c.isDigit then some (n * 10 + (c.toNat - 48)) else none))
    (some 0)

def toNumM (s : String) : Option ℚ :=
  match s.toList with
  | '-' :: rest => (digitsVal rest).map (fun n => -(n : ℚ))
  | cs => (digitsVal cs).map (fun n => (n : ℚ))

/-- JavaScript array indexing `data[low]` where `low` is a number:
defined (a row) exactly when `low` is an integer within bounds,
`undefined` (here `none`) otherwise. -/
def rowAt (t : PTable) (q : ℚ) : Option (List String) :=
  if q.den = 1 ∧ 0 ≤ q.num ∧ q.num < (t.data.length : ℤ) then
    some (t.data.getD q.num.toNat [])
  else none

/-- `band` from `Pipe3.ts` as called inside `cuts`/`mark`, tracking
which rows it reads: `none` models the `TypeError` thrown when the row
read is `undefined` (e.g. `data[-1]`). -/
def bandCk (t : PTable) (low high : ℚ) : Option String :=
  if low = 1 then (rowAt t high).map (fun r => ".." ++ r.getD t.c "undefined")
  else
    match rowAt t low, rowAt t high with
    | some rl, some rh => some (rl.getD t.c "undefined" ++ ".." ++ rh.getD t.c "undefined")
    | _, _ => none

/-- The two `mark` calls that end every `cuts` invocation:
`mark(input, 1, low-1)` then `mark(input, low, high)`.  Each `mark`
first evaluates `band`; a failed row read crashes.  (The writes
themselves cannot crash once the band reads succeeded, since every
written index lies between the read boundary rows.) -/
def cutsEnd (t : PTable) (low : ℚ) (high : ℤ) : CutsOut :=
  match bandCk t 1 (low - 1) with
  | none => .crash
  | some _ =>
    match bandCk t low (high : ℚ) with
    | none => .crash
    | some _ => .ok

/-- `cuts` from `Pipe3.ts` with a fuel bound on the recursion depth
(`none` = fuel exhausted, i.e. the recursion is deeper than the fuel).
One call: read `data[low][c]` for the trace line (crash if the row is
`undefined`); if `high - low > enough` (where `enough = rows ** 0.5`;
over an integer `high` and in-range `low` this is equivalent to
`0 < high - low` and `rows < (high - low)^2`), parse
`cut = Number(data[low][cols])` via the coercion parameter `toNum`;
if `cut` is truthy and `cut <= rows`,
recurse at `low = cut + 1` with `high` fixed; otherwise fall through to
the two `mark` calls. -/
def cutsFuel (toNum : String → Option ℚ) (t : PTable) : ℕ → ℚ → ℤ → Option CutsOut
  | 0, _, _ => none
  | fuel + 1, low, high =>
    match rowAt t low with
    | none => some .crash
    | some row =>
      if (t.rows : ℚ) < ((high : ℚ) - low) ^ 2 ∧ 0 < (high : ℚ) - low then
        match toNum (row.getD t.cols "undefined") with
        | some q =>
          if q ≠ 0 ∧ q ≤ (t.rows : ℚ) then cutsFuel toNum t fuel (q + 1) high
          else some (cutsEnd t low high)
        | none => some (cutsEnd t low high)
      else some (cutsEnd t low high)

/-- One-step unfolding of `cutsFuel` (definitional). -/
theorem cutsFuel_succ (toNum : String → Option ℚ) (t : PTable) (fuel : ℕ)
    (low : ℚ) (high : ℤ) :
    cutsFuel toNum t (fuel + 1) low high =
      match rowAt t low with
      | none => some .crash
      | some row =>
        if (t.rows : ℚ) < ((high : ℚ) - low) ^ 2 ∧ 0 < (high : ℚ) - low then
          match toNum (row.getD t.cols "undefined") with
          | some q =>
            if q ≠ 0 ∧ q ≤ (t.rows : ℚ) then cutsFuel toNum t fuel (q + 1) high
            else some (cutsEnd t low high)
          | none => some (cutsEnd t low high)
        else some (cutsEnd t low high) := rfl

/-- On the three-row table whose cut column is `-1` everywhere,
`cuts(t, 0, 2)` recurses forever: `-1` is truthy in JavaScript and
`-1 <= rows`, so each call recurses at `low = -1 + 1 = 0`, the same
state. -/
theorem cuts_neg_one_loops (fuel : ℕ) :
    cutsFuel toNumM (mkPTable [["a", "x", "-1"], ["b", "y", "-1"], ["c", "z", "-1"]]) fuel 0 2
      = none := by
  induction fuel with
  | zero => rfl
  | succ fuel ih =>
    have hrow : rowAt (mkPTable [["a", "x", "-1"], ["b", "y", "-1"], ["c", "z", "-1"]]) 0
        = some ["a", "x", "-1"] := by decide
    have hnum : toNumM (["a", "x", "-1"].getD
        (mkPTable [["a", "x", "-1"], ["b", "y", "-1"], ["c", "z", "-1"]]).cols "undefined")
        = some (-1) := by decide
    rw [cutsFuel_succ, hrow]
    dsimp only
    split_ifs with h1
    · rw [hnum]
      dsimp only
      split_ifs with h2
      · rw [show (-1 : ℚ) + 1 = 0 by norm_num]
        exact ih
      · exfalso
        apply h2
        refine ⟨by norm_num, ?_⟩
        norm_num [mkPTable]
    · exfalso
      apply h1
      refine ⟨?_, by norm_num⟩
      norm_num [mkPTable]

/-- Claim C10 counterexample: the three-row table with cut value `-1`
in every row satisfies the claim's hypothesis (every cut value is not a
positive number; on the literal `"-1"` the coercion `toNumM` agrees
with JavaScript, `Number("-1") = -1`), `0 ≤ low = 0 ≤ high = 2 ≤ r = 2`,
yet the recursion
exceeds any depth — in particular depth 50, far beyond the claimed
bound `high - low + 1 = 3`.  (A negative number is truthy in
JavaScript, so the guard `cut && cut <= rows` passes and the recursion
restarts at `low = cut + 1 = 0`.) -/
theorem cuts_depth_bound_violated :
    toNumM (cellStr (mkPTable [["a", "x", "-1"], ["b", "y", "-1"], ["c", "z", "-1"]]).data 0
      (mkPTable [["a", "x", "-1"], ["b", "y", "-1"], ["c", "z", "-1"]]).cols) = some (-1) ∧
    toNumM (cellStr (mkPTable [["a", "x", "-1"], ["b", "y", "-1"], ["c", "z", "-1"]]).data 1
      (mkPTable [["a", "x", "-1"], ["b", "y", "-1"], ["c", "z", "-1"]]).cols) = some (-1) ∧
    toNumM (cellStr (mkPTable [["a", "x", "-1"], ["b", "y", "-1"], ["c", "z", "-1"]]).data 2
      (mkPTable [["a", "x", "-1"], ["b", "y", "-1"], ["c", "z", "-1"]]).cols) = some (-1) ∧
    ¬ ((0 : ℚ) < -1) ∧
    (mkPTable [["a", "x", "-1"], ["b", "y", "-1"], ["c", "z", "-1"]]).rows = 2 ∧
    cutsFuel toNumM (mkPTable [["a", "x", "-1"], ["b", "y", "-1"], ["c", "z", "-1"]]) 50 0 2
      = none := by
  refine ⟨by decide, by decide, by decide, by decide, rfl, cuts_neg_one_loops 50⟩

/-- A cut-column value is harmless at row `i` when the coercion `toNum`
sends it to `NaN`, to `0`, or to a value in the range `[i, rows]` — the
claim's hypothesis with "not a positive number" tightened to "zero or
not a number", stated over whatever values the coercion actually
produces. -/
def cutFieldOk (toNum : String → Option ℚ) (t : PTable) (i : ℕ) : Bool :=
  match toNum (cellStr t.data i t.cols) with
  | none => true
  | some q => decide (q = 0) || (decide ((i : ℚ) ≤ q) && decide (q ≤ (t.rows : ℚ)))

theorem cuts_fuel_aux (toNum : String → Option ℚ) (t : PTable) (high : ℤ)
    (hvals : ∀ i : ℕ, i < t.data.length → cutFieldOk toNum t i = true) :
    ∀ (f : ℕ) (low : ℚ), 0 ≤ low → (high : ℚ) - low < (f : ℚ) + 1 →
      cutsFuel toNum t (f + 1) low high ≠ none := by
  intro f
  induction f with
  | zero =>
    intro low hlow hbound
    rw [cutsFuel_succ]
    rcases hrow : rowAt t low with _ | row
    · simp
    · have hint : (low.num : ℚ) = low ∧ 0 ≤ low.num := by
        rw [rowAt] at hrow
        split_ifs at hrow with hcond
        refine ⟨?_, hcond.2.1⟩
        rw [← Rat.num_div_den low, hcond.1]
        norm_num
      have hneg : ¬ (0 : ℚ) < (high : ℚ) - low := by
        intro hpos
        have e1 : (high : ℚ) - low = ((high - low.num : ℤ) : ℚ) := by
          push_cast
          rw [hint.1]
        rw [e1] at hpos hbound
        have h1 : (0 : ℤ) < high - low.num := by exact_mod_cast hpos
        have h4 : high - low.num < 1 := by
          have h3 : ((high - low.num : ℤ) : ℚ) < 1 := by
            refine lt_of_lt_of_le hbound ?_
            norm_num
          exact_mod_cast h3
        omega
      dsimp only
      rw [if_neg (fun h => hneg h.2)]
      simp
  | succ f ih =>
    intro low hlow hbound
    rw [cutsFuel_succ]
    rcases hrow : rowAt t low with _ | row
    · simp
    · have hcond : low.den = 1 ∧ 0 ≤ low.num ∧ low.num < (t.data.length : ℤ) ∧
          row = t.data.getD low.num.toNat [] := by
        rw [rowAt] at hrow
        split_ifs at hrow with hc
        exact ⟨hc.1, hc.2.1, hc.2.2, (Option.some.inj hrow).symm⟩
      have hint : (low.num : ℚ) = low := by
        rw [← Rat.num_div_den low, hcond.1]
        norm_num
      dsimp only
      split_ifs with hguard
      · rcases hnum : toNum (row.getD t.cols "undefined") with _ | q
        · simp
        · dsimp only
          split_ifs with htruthy
          · -- recursive call: the hypothesis forces the cut to be at least low
            have hidx : low.num.toNat < t.data.length := by
              have := hcond.2.2.1
              omega
            have hok := hvals low.num.toNat hidx
            rw [cutFieldOk] at hok
            have hcell : cellStr t.data low.num.toNat t.cols = row.getD t.cols "undefined" := by
              rw [cellStr, hcond.2.2.2]
            rw [hcell, hnum] at hok
            simp only [Bool.or_eq_true, Bool.and_eq_true, decide_eq_true_eq] at hok
            rcases hok with hok | hok
            · exact absurd hok htruthy.1
            · have hq : low ≤ q := by
                rw [← hint]
                calc (low.num : ℚ) = ((low.num.toNat : ℕ) : ℚ) := by
                      have h5 := Int.toNat_of_nonneg hcond.2.1
                      exact_mod_cast h5.symm
                  _ ≤ q := hok.1
              apply ih (q + 1) (by linarith)
              push_cast at hbound
              linarith
          · simp
      · simp

/-- Claim C10 (amended): if every row's cut value is zero, not a
number, or lies in `[i, r]` (where `i` is the row's index and
`r = rows`), then for every `0 ≤ low ≤ high ≤ r` the recursion
`cuts(input, low, high, pre)` terminates within the claimed depth
`high - low + 1`: each recursive call strictly increases `low` while
`high` stays fixed.  ("Not a positive number" in the original is
tightened to "zero or NaN": negative values are truthy in JavaScript
and send the recursion backwards, as the counterexample shows.)  The
theorem quantifies over the string-to-number coercion `toNum`, so it
covers in particular the real `Number()` semantics: the hypothesis
constrains the numeric values the coercion actually yields on the
table's cut fields, whatever the strings look like. -/
theorem cuts_terminates_on_wellformed_cuts (toNum : String → Option ℚ)
    (d : List (List String)) (low high : ℕ)
    (hvals : ∀ i : ℕ, i < d.length → cutFieldOk toNum (mkPTable d) i = true)
    (hlh : low ≤ high) :
    cutsFuel toNum (mkPTable d) (high - low + 1) (low : ℚ) (high : ℤ) ≠ none := by
  apply cuts_fuel_aux toNum (mkPTable d) high hvals (high - low) (low : ℚ)
  · positivity
  · push_cast
    have : ((high - low : ℕ) : ℚ) = (high : ℚ) - (low : ℚ) := by
      push_cast [Nat.cast_sub hlh]
      ring
    rw [this]
    linarith

/-- Witness for the amended C10 theorem: a three-row table whose cut
column is `2, 0, 0` satisfies the hypothesis, and `cuts` from
`low = 0`, `high = 2` terminates within depth 3. -/
theorem cuts_terminates_on_wellformed_cuts_witness :
    (∀ i : ℕ, i < 3 →
      cutFieldOk toNumM
        (mkPTable [["a", "1", "2"], ["b", "2", "0"], ["c", "3", "0"]]) i = true) ∧
    cutsFuel toNumM (mkPTable [["a", "1", "2"], ["b", "2", "0"], ["c", "3", "0"]]) 3 0 2
      ≠ none := by
  refine ⟨by decide, ?_⟩
  exact cuts_terminates_on_wellformed_cuts toNumM
    [["a", "1", "2"], ["b", "2", "0"], ["c", "3", "0"]] 0 2 (by decide) (by decide)

/-- A data row of `sortlastcol.ts`. -/
abbrev Row := List ℚ

/-- `row[row.length - 1]` — the last-column value every sort compares. -/
def keyOf (r : Row) : ℚ := r.getD (r.length - 1) 0

/-- Row comparison by last-column value. -/
abbrev rowLe (a b : Row) : Prop := keyOf a ≤ keyOf b

/-- `merge` from `sortlastcol.ts`: stable two-way merge taking from the
left run on ties (`left[i][…] <= right[j][…]`). -/
def merge : List Row → List Row → List Row
  | [], r => r
  | l, [] => l
  | a :: l, b :: r =>
    if keyOf a ≤ keyOf b then a :: merge l (b :: r)
    else b :: merge (a :: l) r
termination_by l r => l.length + r.length

/-- `mergeSort` from `sortlastcol.ts`: split at `floor(n/2)`, recurse,
merge. -/
def mergeSort (l : List Row) : List Row :=
  if l.length < 2 then l
  else
    merge (mergeSort (l.take (l.length / 2))) (mergeSort (l.drop (l.length / 2)))
termination_by l.length
decreasing_by
  · simp only [List.length_take]
    omega
  · simp only [List.length_drop]
    omega

/-- One full bubble sweep: swap each out-of-order adjacent pair
(`vals[j] > vals[j+1]`), carrying the running maximum rightward. -/
def fullPass : List Row → List Row
  | a :: b :: t => if keyOf a > keyOf b then b :: fullPass (a :: t) else a :: fullPass (b :: t)
  | l => l
termination_by l => l.length

/-- The inner loop of `bubbleSort`, limited to `m` adjacent
comparisons (`for j = 0; j < n-i-1`). -/
def bubbleInner : ℕ → List Row → List Row
  | 0, l => l
  | m + 1, a :: b :: t =>
    if keyOf a > keyOf b then b :: bubbleInner m (a :: t)
    else a :: bubbleInner m (b :: t)
  | _, l => l

/-- The outer loop of `bubbleSort`: passes with bounds `m, m-1, …, 1`
(the source runs `i = 0 … n-2` with inner bound `n-i-1`). -/
def bubbleGo : ℕ → List Row → List Row
  | 0, l => l
  | m + 1, l => bubbleGo m (bubbleInner (m + 1) l)

/-- `bubbleSort` from `sortlastcol.ts`. -/
def bubbleSort (l : List Row) : List Row := bubbleGo (l.length - 1) l

/-- The inner scan of `selectionSort`: starting from candidate `cur`,
walk `j` to the end of the list, updating the candidate whenever a
strictly smaller key is seen (so the first minimum is kept). -/
def selScan (l : List Row) (j cur : ℕ) : ℕ :=
  if j < l.length then
    if keyOf (l.getD j []) < keyOf (l.getD cur []) then selScan l (j + 1) j
    else selScan l (j + 1) cur
  else cur
termination_by l.length - j

/-- `selectionSort` from `sortlastcol.ts`: find the index of the first
minimum in the current suffix, swap it with the suffix head, recurse on
the tail.  A zero scan result means the head already is the minimum
(the swap `vals[i] ↔ vals[min]` with `min = i` is a no-op). -/
def selectionSort : List Row → List Row
  | [] => []
  | a :: t =>
    let j := selScan (a :: t) 1 0
    if j = 0 then a :: selectionSort t
    else (a :: t).getD j [] :: selectionSort (t.set (j - 1) a)
termination_by l => l.length
decreasing_by
  · simp
  · simp

/-- `isSorted` from `sortlastcol.ts`: false iff some adjacent pair has
`vals[i] < vals[i-1]` on the last column. -/
def isSorted : List Row → Bool
  | a :: b :: t => !(keyOf b < keyOf a) && isSorted (b :: t)
  | _ => true

/-- The three-statement swap of `bogoSort`
(`temp = vals[i]; vals[i] = vals[j]; vals[j] = temp`). -/
def swapIdx (l : List Row) (i j : ℕ) : List Row :=
  (l.set i (l.getD j [])).set j (l.getD i [])

/-- One shuffle sweep of `bogoSort`: for each `i`, swap `vals[i]` with
`vals[floor(random * i)]`; `ctr` numbers the `Math.random()` calls. -/
def bogoPass (rand : ℕ → ℚ) (ctr : ℕ) (l : List Row) : List Row :=
  (List.range l.length).foldl
    (fun acc i => swapIdx acc i (Int.toNat ⌊rand (ctr + i) * (i : ℚ)⌋)) l

/-- `bogoSort` from `sortlastcol.ts` with explicit fuel (`none` models
a run that has not terminated within `fuel` shuffle passes) and an
explicit stream of `Math.random()` results. -/
def bogoGo (rand : ℕ → ℚ) : ℕ → ℕ → List Row → Option (List Row)
  | 0, _, l => if isSorted l then some l else none
  | fuel + 1, ctr, l =>
    if isSorted l then some l
    else bogoGo rand fuel (ctr + l.length) (bogoPass rand ctr l)

def bogoSort (rand : ℕ → ℚ) (fuel : ℕ) (l : List Row) : Option (List Row) :=
  bogoGo rand fuel 0 l

theorem merge_perm_aux :
    ∀ (n : ℕ) (l r : List Row), l.length + r.length ≤ n →
      (merge l r).Perm (l ++ r) := by
  intro n
  induction n with
  | zero =>
    intro l r h
    match l, r with
    | [], r => simp [merge]
    | a :: l, r => simp at h
  | succ n ih =>
    intro l r h
    match l, r with
    | [], r => simp [merge]
    | a :: l, [] => simp [merge]
    | a :: l, b :: r =>
      rw [merge]
      split_ifs with hab
      · exact (ih l (b :: r) (by simp at h ⊢; omega)).cons a
      · refine ((ih (a :: l) r (by simp at h ⊢; omega)).cons b).trans ?_
        exact (List.Perm.swap a b (l ++ r)).trans (List.Perm.cons a List.perm_middle.symm)

theorem merge_perm (l r : List Row) : (merge l r).Perm (l ++ r) :=
  merge_perm_aux (l.length + r.length) l r (le_refl _)

theorem mem_merge {x : Row} {l r : List Row} :
    x ∈ merge l r ↔ x ∈ l ∨ x ∈ r := by
  rw [(merge_perm l r).mem_iff, List.mem_append]

theorem merge_sorted_aux :
    ∀ (n : ℕ) (l r : List Row), l.length + r.length ≤ n →
      List.Sorted rowLe l → List.Sorted rowLe r →
      List.Sorted rowLe (merge l r) := by
  intro n
  induction n with
  | zero =>
    intro l r h hl hr
    match l, r with
    | [], r => simpa [merge] using hr
    | a :: l, r => simp at h
  | succ n ih =>
    intro l r h hl hr
    match l, r with
    | [], r => simpa [merge] using hr
    | a :: l, [] => simpa [merge] using hl
    | a :: l, b :: r =>
      rw [merge]
      obtain ⟨hal, hl'⟩ := List.sorted_cons.mp hl
      obtain ⟨hbr, hr'⟩ := List.sorted_cons.mp hr
      split_ifs with hab
      · refine List.sorted_cons.mpr ⟨?_, ih l (b :: r) (by simp at h ⊢; omega) hl' hr⟩
        intro x hx
        rcases mem_merge.mp hx with hx | hx
        · exact hal x hx
        · rcases List.mem_cons.mp hx with rfl | hx
          · exact hab
          · exact le_trans hab (hbr x hx)
      · push_neg at hab
        refine List.sorted_cons.mpr ⟨?_, ih (a :: l) r (by simp at h ⊢; omega) hl hr'⟩
        intro x hx
        rcases mem_merge.mp hx with hx | hx
        · rcases List.mem_cons.mp hx with rfl | hx
          · exact le_of_lt hab
          · exact le_trans (le_of_lt hab) (hal x hx)
        · exact hbr x hx

theorem merge_sorted (l r : List Row) (hl : List.Sorted rowLe l)
    (hr : List.Sorted rowLe r) : List.Sorted rowLe (merge l r) :=
  merge_sorted_aux (l.length + r.length) l r (le_refl _) hl hr

theorem merge_filter_aux (v : ℚ) :
    ∀ (n : ℕ) (l r : List Row), l.length + r.length ≤ n →
      List.Sorted rowLe l →
      (merge l r).filter (fun x => decide (keyOf x = v))
        = l.filter (fun x => decide (keyOf x = v))
          ++ r.filter (fun x => decide (keyOf x = v)) := by
  intro n
  induction n with
  | zero =>
    intro l r h _
    match l, r with
    | [], r => simp [merge]
    | a :: l, r => simp at h
  | succ n ih =>
    intro l r h hl
    match l, r with
    | [], r => simp [merge]
    | a :: l, [] => simp [merge]
    | a :: l, b :: r =>
      obtain ⟨hal, hl'⟩ := List.sorted_cons.mp hl
      rw [merge]
      split_ifs with hab
      · rw [List.filter_cons, List.filter_cons]
        split_ifs with hva
        · rw [ih l (b :: r) (by simp at h ⊢; omega) hl']
          simp
        · rw [ih l (b :: r) (by simp at h ⊢; omega) hl']
      · push_neg at hab
        rw [List.filter_cons, ih (a :: l) r (by simp at h ⊢; omega) hl]
        by_cases hvb : keyOf b = v
        · have hnil : (a :: l).filter (fun x => decide (keyOf x = v)) = [] := by
            rw [List.filter_eq_nil_iff]
            intro x hx
            simp only [decide_eq_true_eq]
            intro hxv
            have hlt : keyOf b < keyOf x := by
              rcases List.mem_cons.mp hx with rfl | hx
              · exact hab
              · exact lt_of_lt_of_le hab (hal x hx)
            rw [hxv, hvb] at hlt
            exact lt_irrefl v hlt
          rw [hnil]
          simp [List.filter_cons, hvb]
        · simp [List.filter_cons, hvb]

theorem mergeSort_props_aux :
    ∀ (n : ℕ) (l : List Row), l.length ≤ n →
      List.Sorted rowLe (mergeSort l) ∧
      (mergeSort l).Perm l ∧
      (∀ v : ℚ, (mergeSort l).filter (fun x => decide (keyOf x = v))
        = l.filter (fun x => decide (keyOf x = v))) := by
  intro n
  induction n with
  | zero =>
    intro l h
    have hl : l = [] := List.length_eq_zero.mp (by omega)
    subst hl
    rw [mergeSort]
    simp
  | succ n ih =>
    intro l h
    rw [mergeSort]
    split_ifs with hsmall
    · match l, hsmall with
      | [], _ => simp
      | [a], _ => simp
      | a :: b :: t, hsmall => exact absurd hsmall (by simp)
    · push_neg at hsmall
      have htake : (l.take (l.length / 2)).length ≤ n := by
        simp only [List.length_take]
        omega
      have hdrop : (l.drop (l.length / 2)).length ≤ n := by
        simp only [List.length_drop]
        omega
      obtain ⟨hs1, hp1, hf1⟩ := ih (l.take (l.length / 2)) htake
      obtain ⟨hs2, hp2, hf2⟩ := ih (l.drop (l.length / 2)) hdrop
      refine ⟨merge_sorted _ _ hs1 hs2, ?_, ?_⟩
      · refine (merge_perm _ _).trans ?_
        refine (hp1.append hp2).trans ?_
        rw [List.take_append_drop]
      · intro v
        rw [merge_filter_aux v ((mergeSort (l.take (l.length / 2))).length
            + (mergeSort (l.drop (l.length / 2))).length) _ _ (le_refl _) hs1,
          hf1 v, hf2 v, ← List.filter_append, List.take_append_drop]

theorem mergeSort_sorted (l : List Row) : List.Sorted rowLe (mergeSort l) :=
  (mergeSort_props_aux l.length l (le_refl _)).1

theorem mergeSort_perm (l : List Row) : (mergeSort l).Perm l :=
  (mergeSort_props_aux l.length l (le_refl _)).2.1

theorem mergeSort_stable (l : List Row) (v : ℚ) :
    (mergeSort l).filter (fun x => decide (keyOf x = v))
      = l.filter (fun x => decide (keyOf x = v)) :=
  (mergeSort_props_aux l.length l (le_refl _)).2.2 v

theorem pass_perm_aux :
    ∀ (n : ℕ) (l : List Row), l.length ≤ n → (fullPass l).Perm l := by
  intro n
  induction n with
  | zero =>
    intro l h
    have : l = [] := List.length_eq_zero.mp (by omega)
    subst this
    simp [fullPass]
  | succ n ih =>
    intro l h
    match l with
    | [] => simp [fullPass]
    | [a] => simp [fullPass]
    | a :: b :: t =>
      rw [fullPass]
      split_ifs with hab
      · exact ((ih (a :: t) (by simp at h ⊢; omega)).cons b).trans (List.Perm.swap a b t)
      · exact (ih (b :: t) (by simp at h ⊢; omega)).cons a

theorem pass_perm (l : List Row) : (fullPass l).Perm l :=
  pass_perm_aux l.length l (le_refl _)

theorem pass_length (l : List Row) : (fullPass l).length = l.length :=
  (pass_perm l).length_eq

theorem pass_filter_aux (v : ℚ) :
    ∀ (n : ℕ) (l : List Row), l.length ≤ n →
      (fullPass l).filter (fun x => decide (keyOf x = v))
        = l.filter (fun x => decide (keyOf x = v)) := by
  intro n
  induction n with
  | zero =>
    intro l h
    have : l = [] := List.length_eq_zero.mp (by omega)
    subst this
    simp [fullPass]
  | succ n ih =>
    intro l h
    match l with
    | [] => simp [fullPass]
    | [a] => simp [fullPass]
    | a :: b :: t =>
      rw [fullPass]
      split_ifs with hab
      · rw [List.filter_cons, ih (a :: t) (by simp at h ⊢; omega)]
        by_cases hva : keyOf a = v
        · have hvb : ¬ keyOf b = v := by
            intro hvb
            rw [hva, hvb] at hab
            exact lt_irrefl v hab
          simp [List.filter_cons, hva, hvb]
        · by_cases hvb : keyOf b = v <;> simp [List.filter_cons, hva, hvb]
      · rw [List.filter_cons, ih (b :: t) (by simp at h ⊢; omega)]
        by_cases hva : keyOf a = v <;> simp [List.filter_cons, hva]

theorem pass_filter (l : List Row) (v : ℚ) :
    (fullPass l).filter (fun x => decide (keyOf x = v))
      = l.filter (fun x => decide (keyOf x = v)) :=
  pass_filter_aux v l.length l (le_refl _)

theorem pass_last_aux :
    ∀ (n : ℕ) (l : List Row), l.length ≤ n → l ≠ [] →
      ∃ t m, fullPass l = t ++ [m] ∧ ∀ x ∈ l, keyOf x ≤ keyOf m := by
  intro n
  induction n with
  | zero =>
    intro l h hne
    exact absurd (List.length_eq_zero.mp (by omega)) hne
  | succ n ih =>
    intro l h hne
    match l with
    | [a] =>
      refine ⟨[], a, by simp [fullPass], ?_⟩
      intro x hx
      rw [List.mem_singleton.mp hx]
    | a :: b :: t =>
      rw [fullPass]
      split_ifs with hab
      · obtain ⟨t', m, heq, hbound⟩ := ih (a :: t) (by simp at h ⊢; omega) (by simp)
        refine ⟨b :: t', m, by rw [heq, List.cons_append], ?_⟩
        intro x hx
        rcases List.mem_cons.mp hx with h1 | h1
        · rw [h1]
          exact hbound _ (List.mem_cons_self _ _)
        · rcases List.mem_cons.mp h1 with h2 | h2
          · rw [h2]
            exact le_trans (le_of_lt hab) (hbound _ (List.mem_cons_self _ _))
          · exact hbound x (List.mem_cons_of_mem _ h2)
      · push_neg at hab
        obtain ⟨t', m, heq, hbound⟩ := ih (b :: t) (by simp at h ⊢; omega) (by simp)
        refine ⟨a :: t', m, by rw [heq, List.cons_append], ?_⟩
        intro x hx
        rcases List.mem_cons.mp hx with h1 | h1
        · rw [h1]
          exact le_trans hab (hbound _ (List.mem_cons_self _ _))
        · exact hbound x h1

theorem pass_last (l : List Row) (hne : l ≠ []) :
    ∃ t m, fullPass l = t ++ [m] ∧ ∀ x ∈ l, keyOf x ≤ keyOf m :=
  pass_last_aux l.length l (le_refl _) hne

theorem bubbleInner_eq_fullPass :
    ∀ (m : ℕ) (l : List Row),
      bubbleInner m l = fullPass (l.take (m + 1)) ++ l.drop (m + 1) := by
  intro m
  induction m with
  | zero =>
    intro l
    match l with
    | [] => simp [bubbleInner, fullPass]
    | [a] => simp [bubbleInner, fullPass]
    | a :: b :: t => simp [bubbleInner, fullPass]
  | succ m ih =>
    intro l
    match l with
    | [] => simp [bubbleInner, fullPass]
    | [a] => simp [bubbleInner, fullPass]
    | a :: b :: t =>
      rw [bubbleInner]
      simp only [List.take_succ_cons, List.drop_succ_cons]
      rw [fullPass]
      split_ifs with hab
      · rw [ih (a :: t)]
        simp only [List.take_succ_cons, List.drop_succ_cons, List.cons_append]
      · rw [ih (b :: t)]
        simp only [List.take_succ_cons, List.drop_succ_cons, List.cons_append]

theorem bubbleInner_perm (m : ℕ) (l : List Row) : (bubbleInner m l).Perm l := by
  rw [bubbleInner_eq_fullPass]
  have h1 : (fullPass (l.take (m + 1)) ++ l.drop (m + 1)).Perm
      (l.take (m + 1) ++ l.drop (m + 1)) := (pass_perm _).append_right _
  rw [List.take_append_drop] at h1
  exact h1

theorem bubbleInner_filter (m : ℕ) (l : List Row) (v : ℚ) :
    (bubbleInner m l).filter (fun x => decide (keyOf x = v))
      = l.filter (fun x => decide (keyOf x = v)) := by
  rw [bubbleInner_eq_fullPass, List.filter_append, pass_filter,
    ← List.filter_append, List.take_append_drop]

theorem bubbleGo_perm : ∀ (m : ℕ) (l : List Row), (bubbleGo m l).Perm l := by
  intro m
  induction m with
  | zero => intro l; rw [bubbleGo]
  | succ m ih =>
    intro l
    rw [bubbleGo]
    exact (ih _).trans (bubbleInner_perm (m + 1) l)

theorem bubbleGo_filter : ∀ (m : ℕ) (l : List Row) (v : ℚ),
    (bubbleGo m l).filter (fun x => decide (keyOf x = v))
      = l.filter (fun x => decide (keyOf x = v)) := by
  intro m
  induction m with
  | zero => intro l v; rw [bubbleGo]
  | succ m ih =>
    intro l v
    rw [bubbleGo, ih, bubbleInner_filter]

theorem bubbleGo_sorted :
    ∀ (m : ℕ) (l : List Row),
      List.Sorted rowLe (l.drop (m + 1)) →
      (∀ x ∈ l.take (m + 1), ∀ y ∈ l.drop (m + 1), keyOf x ≤ keyOf y) →
      List.Sorted rowLe (bubbleGo m l) := by
  intro m
  induction m with
  | zero =>
    intro l hs hcross
    rw [bubbleGo]
    match l with
    | [] => simp
    | a :: t =>
      simp only [List.drop_succ_cons, List.drop_zero] at hs
      simp only [List.take_succ_cons, List.take_zero, List.drop_succ_cons,
        List.drop_zero] at hcross
      refine List.sorted_cons.mpr ⟨?_, hs⟩
      intro x hx
      exact hcross a (by simp) x hx
  | succ m ih =>
    intro l hs hcross
    rw [bubbleGo]
    rcases le_or_lt l.length (m + 1) with hlen | hlen
    · -- the inner pass covers the whole list; the suffix conditions are vacuous
      apply ih
      · have : (bubbleInner (m + 1) l).length = l.length := (bubbleInner_perm _ _).length_eq
        rw [List.drop_eq_nil_of_le (by omega)]
        exact List.sorted_nil
      · intro x _ y hy
        rw [List.drop_eq_nil_of_le (by
          rw [(bubbleInner_perm (m + 1) l).length_eq]
          omega)] at hy
        exact absurd hy (List.not_mem_nil y)
    · -- the pass bubbles the maximum of the first m+2 elements to position m+1
      have htl : (l.take (m + 2)).length = m + 2 := by
        rw [List.length_take]
        omega
      have htne : l.take (m + 2) ≠ [] := by
        intro hnil
        rw [hnil] at htl
        simp at htl
      obtain ⟨t', mx, heq, hbound⟩ := pass_last (l.take (m + 2)) htne
      have ht' : t'.length = m + 1 := by
        have := pass_length (l.take (m + 2))
        rw [heq, List.length_append, htl] at this
        simp at this
        omega
      have hsplit : bubbleInner (m + 1) l = t' ++ (mx :: l.drop (m + 2)) := by
        rw [bubbleInner_eq_fullPass, heq]
        simp
      have hmem_take : ∀ x ∈ t' ++ [mx], x ∈ l.take (m + 2) := by
        intro x hx
        have hx2 : x ∈ fullPass (l.take (m + 2)) := by
          rw [heq]
          exact hx
        exact (pass_perm _).subset hx2
      apply ih
      · -- drop (m+1) of the new list is mx :: drop (m+2) l, which is sorted
        rw [hsplit, ← ht', List.drop_left]
        refine List.sorted_cons.mpr ⟨?_, hs⟩
        intro y hy
        exact hcross mx (hmem_take mx (by simp)) y hy
      · -- everything in the first m+1 slots is at most mx and at most the old suffix
        intro x hx y hy
        rw [hsplit, ← ht', List.take_left] at hx
        rw [hsplit, ← ht', List.drop_left] at hy
        have hxtake : x ∈ l.take (m + 2) := hmem_take x (by simp [hx])
        rcases List.mem_cons.mp hy with h1 | h1
        · rw [h1]
          exact hbound x hxtake
        · exact hcross x hxtake y h1

theorem bubbleSort_sorted (l : List Row) : List.Sorted rowLe (bubbleSort l) := by
  rw [bubbleSort]
  match l with
  | [] => simp [bubbleGo]
  | a :: t =>
    apply bubbleGo_sorted
    · rw [List.drop_eq_nil_of_le (by simp)]
      exact List.sorted_nil
    · intro x _ y hy
      rw [List.drop_eq_nil_of_le (by simp)] at hy
      exact absurd hy (List.not_mem_nil y)

theorem bubbleSort_perm (l : List Row) : (bubbleSort l).Perm l := bubbleGo_perm _ l

theorem bubbleSort_stable (l : List Row) (v : ℚ) :
    (bubbleSort l).filter (fun x => decide (keyOf x = v))
      = l.filter (fun x => decide (keyOf x = v)) := bubbleGo_filter _ l v

theorem selScan_min_aux (l : List Row) :
    ∀ (d j cur : ℕ), l.length - j ≤ d → cur < l.length →
      (∀ i, i < j → i < l.length → keyOf (l.getD cur []) ≤ keyOf (l.getD i [])) →
      selScan l j cur < l.length ∧
      (∀ i, i < l.length → keyOf (l.getD (selScan l j cur) []) ≤ keyOf (l.getD i [])) := by
  intro d
  induction d with
  | zero =>
    intro j cur hd hcur hinv
    have hj : l.length ≤ j := by omega
    rw [selScan, if_neg (by omega)]
    exact ⟨hcur, fun i hi => hinv i (by omega) hi⟩
  | succ d ih =>
    intro j cur hd hcur hinv
    rcases lt_or_le j l.length with hj | hj
    · rw [selScan, if_pos hj]
      split_ifs with hlt
      · apply ih (j + 1) j (by omega) hj
        intro i hi1 hi2
        rcases Nat.lt_succ_iff_lt_or_eq.mp hi1 with h1 | rfl
        · exact le_trans (le_of_lt hlt) (hinv i h1 hi2)
        · exact le_refl _
      · apply ih (j + 1) cur (by omega) hcur
        intro i hi1 hi2
        rcases Nat.lt_succ_iff_lt_or_eq.mp hi1 with h1 | rfl
        · exact hinv i h1 hi2
        · exact le_of_not_lt hlt
    · rw [selScan, if_neg (by omega)]
      exact ⟨hcur, fun i hi => hinv i (by omega) hi⟩

theorem selScan_min (l : List Row) (hne : 0 < l.length) :
    selScan l 1 0 < l.length ∧
    (∀ i, i < l.length → keyOf (l.getD (selScan l 1 0) []) ≤ keyOf (l.getD i [])) := by
  apply selScan_min_aux l l.length 1 0 (by omega) hne
  intro i hi1 _
  have : i = 0 := by omega
  rw [this]

/-- Swapping the head into the position of the selected element:
`l[k] :: (l with position k overwritten by a)` is a permutation of
`a :: l`. -/
theorem cons_set_perm :
    ∀ (t : List Row) (k : ℕ) (a : Row), k < t.length →
      (t.getD k [] :: t.set k a).Perm (a :: t) := by
  intro t
  induction t with
  | nil =>
    intro k a hk
    simp at hk
  | cons x t ih =>
    intro k a hk
    match k with
    | 0 =>
      simp only [List.getD_cons_zero, List.set_cons_zero]
      exact List.Perm.swap a x t
    | k + 1 =>
      simp only [List.getD_cons_succ, List.set_cons_succ]
      refine (List.Perm.swap x (t.getD k []) (t.set k a)).trans ?_
      refine (List.Perm.cons x (ih k a (by simpa using hk))).trans ?_
      exact List.Perm.swap a x t

theorem selectionSort_perm : ∀ (n : ℕ) (l : List Row), l.length ≤ n →
    (selectionSort l).Perm l := by
  intro n
  induction n with
  | zero =>
    intro l h
    have : l = [] := List.length_eq_zero.mp (by omega)
    subst this
    rw [selectionSort]
  | succ n ih =>
    intro l h
    match l with
    | [] => rw [selectionSort]
    | a :: t =>
      rw [selectionSort]
      split_ifs with hj
      · exact (ih t (by simp at h; omega)).cons a
      · have hscan := (selScan_min (a :: t) (by simp)).1
        obtain ⟨k, hkeq⟩ : ∃ k, selScan (a :: t) 1 0 = k + 1 :=
          ⟨selScan (a :: t) 1 0 - 1, by omega⟩
        have hk : k < t.length := by
          simp only [List.length_cons] at hscan
          omega
        rw [hkeq]
        simp only [List.getD_cons_succ, Nat.add_sub_cancel]
        refine ((ih (t.set k a) (by simp at h ⊢; omega)).cons _).trans ?_
        exact cons_set_perm t k a hk

theorem mem_getD (l : List Row) (x : Row) (hx : x ∈ l) :
    ∃ i, i < l.length ∧ l.getD i [] = x := by
  obtain ⟨i, hi, hieq⟩ := List.mem_iff_getElem.mp hx
  refine ⟨i, hi, ?_⟩
  rw [List.getD_eq_getElem l [] hi]
  exact hieq

theorem selectionSort_sorted_aux : ∀ (n : ℕ) (l : List Row), l.length ≤ n →
    List.Sorted rowLe (selectionSort l) := by
  intro n
  induction n with
  | zero =>
    intro l h
    have : l = [] := List.length_eq_zero.mp (by omega)
    subst this
    rw [selectionSort]
    exact List.sorted_nil
  | succ n ih =>
    intro l h
    match l with
    | [] =>
      rw [selectionSort]
      exact List.sorted_nil
    | a :: t =>
      rw [selectionSort]
      split_ifs with hj
      · refine List.sorted_cons.mpr ⟨?_, ih t (by simp at h; omega)⟩
        intro x hx
        have hxt : x ∈ t := (selectionSort_perm t.length t (le_refl _)).subset hx
        obtain ⟨i, hi, hieq⟩ := mem_getD t x hxt
        have hmin := (selScan_min (a :: t) (by simp)).2 (i + 1) (by simpa using hi)
        rw [hj] at hmin
        simp only [List.getD_cons_zero, List.getD_cons_succ] at hmin
        rw [← hieq]
        exact hmin
      · have hscan := (selScan_min (a :: t) (by simp)).1
        obtain ⟨k, hkeq⟩ : ∃ k, selScan (a :: t) 1 0 = k + 1 :=
          ⟨selScan (a :: t) 1 0 - 1, by omega⟩
        have hk : k < t.length := by
          simp only [List.length_cons] at hscan
          omega
        rw [hkeq]
        simp only [List.getD_cons_succ, Nat.add_sub_cancel]
        refine List.sorted_cons.mpr ⟨?_, ih (t.set k a) (by simp at h ⊢; omega)⟩
        intro x hx
        have hx2 : x ∈ a :: t := by
          have h3 : x ∈ t.set k a :=
            (selectionSort_perm (t.set k a).length _ (le_refl _)).subset hx
          exact (cons_set_perm t k a hk).subset (List.mem_cons_of_mem _ h3)
        obtain ⟨i, hi, hieq⟩ := mem_getD (a :: t) x hx2
        have hmin := (selScan_min (a :: t) (by simp)).2 i hi
        rw [hkeq] at hmin
        simp only [List.getD_cons_succ] at hmin
        rw [← hieq]
        exact hmin

theorem selectionSort_sorted (l : List Row) : List.Sorted rowLe (selectionSort l) :=
  selectionSort_sorted_aux l.length l (le_refl _)

instance : IsTrans Row rowLe := ⟨fun _ _ _ hab hbc => le_trans hab hbc⟩

theorem isSorted_iff_chain : ∀ l : List Row, isSorted l = true ↔ List.Chain' rowLe l
  | [] => by simp [isSorted]
  | [a] => by simp [isSorted]
  | a :: b :: t => by
    rw [isSorted, List.chain'_cons, ← isSorted_iff_chain (b :: t)]
    simp [rowLe]

theorem isSorted_eq_sorted (l : List Row) : isSorted l = true ↔ List.Sorted rowLe l := by
  rw [isSorted_iff_chain, List.Sorted, List.chain'_iff_pairwise]

theorem set_getD_self {α : Type} (l : List α) (k : ℕ) (d : α) (h : k < l.length) :
    l.set k (l.getD k d) = l := by
  induction l generalizing k with
  | nil => simp at h
  | cons a t ih =>
    cases k with
    | zero => simp
    | succ k =>
      simp only [List.getD_cons_succ, List.set_cons_succ, List.cons.injEq, true_and]
      exact ih k (by simpa using h)

theorem swapIdx_perm (l : List Row) (i j : ℕ) (hi : i < l.length) (hj : j < l.length) :
    (swapIdx l i j).Perm l := by
  by_cases hij : i = j
  · subst hij
    rw [swapIdx, List.set_set, set_getD_self l i [] hi]
  · have h1 : (l.getD i [] :: l.set i (l.getD j [])).Perm (l.getD j [] :: l) :=
      cons_set_perm l i (l.getD j []) hi
    have hj' : j < (l.set i (l.getD j [])).length := by simpa using hj
    have h2 := cons_set_perm (l.set i (l.getD j [])) j (l.getD i []) hj'
    rw [getD_set_ne_list l i j _ [] hij] at h2
    have h3 : (l.getD j [] :: swapIdx l i j).Perm (l.getD j [] :: l) := h2.trans h1
    exact h3.cons_inv

theorem floor_rand_le (q : ℚ) (h0 : 0 ≤ q) (h1 : q < 1) (i : ℕ) :
    Int.toNat ⌊q * (i : ℚ)⌋ ≤ i := by
  have hq : q * (i : ℚ) ≤ (i : ℚ) := by
    calc q * (i : ℚ) ≤ 1 * (i : ℚ) :=
          mul_le_mul_of_nonneg_right (le_of_lt h1) (by positivity)
      _ = (i : ℚ) := one_mul _
  have hf : ⌊q * (i : ℚ)⌋ ≤ ⌊(i : ℚ)⌋ := Int.floor_mono hq
  rw [Int.floor_natCast] at hf
  have := Int.toNat_le_toNat hf
  simpa using this

theorem foldl_swap_perm (rand : ℕ → ℚ) (hr : ∀ k, 0 ≤ rand k ∧ rand k < 1) (ctr : ℕ) :
    ∀ (idxs : List ℕ) (acc : List Row), (∀ i ∈ idxs, i < acc.length) →
      ((idxs.foldl
        (fun acc i => swapIdx acc i (Int.toNat ⌊rand (ctr + i) * (i : ℚ)⌋)) acc)).Perm acc := by
  intro idxs
  induction idxs with
  | nil =>
    intro acc _
    simp
  | cons i idxs ih =>
    intro acc hmem
    rw [List.foldl_cons]
    have hi : i < acc.length := hmem i (List.mem_cons_self _ _)
    have hj : Int.toNat ⌊rand (ctr + i) * (i : ℚ)⌋ < acc.length :=
      lt_of_le_of_lt (floor_rand_le _ (hr _).1 (hr _).2 i) hi
    have hswap := swapIdx_perm acc i (Int.toNat ⌊rand (ctr + i) * (i : ℚ)⌋) hi hj
    refine (ih _ ?_).trans hswap
    intro i' hi'
    rw [hswap.length_eq]
    exact hmem i' (List.mem_cons_of_mem _ hi')

theorem bogoPass_perm (rand : ℕ → ℚ) (hr : ∀ k, 0 ≤ rand k ∧ rand k < 1)
    (ctr : ℕ) (l : List Row) : (bogoPass rand ctr l).Perm l := by
  apply foldl_swap_perm rand hr ctr (List.range l.length) l
  intro i hi
  exact List.mem_range.mp hi

theorem bogoGo_sorted_perm (rand : ℕ → ℚ) (hr : ∀ k, 0 ≤ rand k ∧ rand k < 1) :
    ∀ (fuel ctr : ℕ) (l out : List Row), bogoGo rand fuel ctr l = some out →
      isSorted out = true ∧ out.Perm l := by
  intro fuel
  induction fuel with
  | zero =>
    intro ctr l out h
    rw [bogoGo] at h
    split_ifs at h with hs
    · obtain rfl := Option.some.inj h
      exact ⟨hs, List.Perm.refl _⟩
  | succ fuel ih =>
    intro ctr l out h
    rw [bogoGo] at h
    split_ifs at h with hs
    · obtain rfl := Option.some.inj h
      exact ⟨hs, List.Perm.refl _⟩
    · have hrec := ih _ _ _ h
      exact ⟨hrec.1, hrec.2.trans (bogoPass_perm rand hr ctr l)⟩

theorem selScan_run1 : selScan ([[1, 2], [0, 2], [9, 1]] : List Row) 1 0 = 2 := by
  rw [selScan, if_pos (by decide), if_neg (by decide),
      selScan, if_pos (by decide), if_pos (by decide),
      selScan, if_neg (by decide)]

theorem selScan_run2 : selScan ([[0, 2], [1, 2]] : List Row) 1 0 = 0 := by
  rw [selScan, if_pos (by decide), if_neg (by decide),
      selScan, if_neg (by decide)]

theorem selScan_run3 : selScan ([[1, 2]] : List Row) 1 0 = 0 := by
  rw [selScan, if_neg (by decide)]

theorem selSort_run :
    selectionSort [[1, 2], [0, 2], [9, 1]] = [[9, 1], [0, 2], [1, 2]] := by
  norm_num [selectionSort, selScan_run1, selScan_run2, selScan_run3]

theorem bogo_run :
    bogoSort (fun _ => 0) 1 [[1, 2], [9, 3], [0, 2]] = some [[0, 2], [1, 2], [9, 3]] := by
  have hns : isSorted [[1, 2], [9, 3], [0, 2]] = false := by decide
  have hpass : bogoPass (fun _ => 0) 0 [[1, 2], [9, 3], [0, 2]] = [[0, 2], [1, 2], [9, 3]] := by
    rw [bogoPass]
    have h3 : List.range ([[1, 2], [9, 3], [0, 2]] : List Row).length = [0, 1, 2] := rfl
    rw [h3]
    simp only [List.foldl_cons, List.foldl_nil, zero_mul, Int.floor_zero, Int.toNat_zero]
    decide
  rw [bogoSort, bogoGo, hns]
  simp only [Bool.false_eq_true, if_false]
  rw [hpass]
  decide

/-- Claim C8 counterexample: the claim says every strategy is stable, but
`selectionSort` reorders the equal-key rows `[1,2]` and `[0,2]` of
`[[1,2],[0,2],[9,1]]` (the swap `vals[0] ↔ vals[2]` moves the first
equal-key row behind the second), and a terminating `bogoSort` run
(random stream constantly 0) likewise reorders the equal-key rows of
`[[1,2],[9,3],[0,2]]`. -/
theorem sorts_not_all_stable :
    ((selectionSort [[1, 2], [0, 2], [9, 1]]).filter (fun x => decide (keyOf x = 2))
      ≠ ([[1, 2], [0, 2], [9, 1]] : List Row).filter (fun x => decide (keyOf x = 2))) ∧
    (bogoSort (fun _ => 0) 1 [[1, 2], [9, 3], [0, 2]] = some [[0, 2], [1, 2], [9, 3]] ∧
      ([[0, 2], [1, 2], [9, 3]] : List Row).filter (fun x => decide (keyOf x = 2))
        ≠ ([[1, 2], [9, 3], [0, 2]] : List Row).filter (fun x => decide (keyOf x = 2))) := by
  refine ⟨?_, bogo_run, ?_⟩
  · rw [selSort_run]
    decide
  · decide

/-- Claim C8 (amended): `mergeSort` and `bubbleSort` return the rows sorted
ascending by last-column value, are permutations of the input, and are
stable (they preserve the relative order of rows with any fixed
last-column value); `selectionSort` returns a sorted permutation but is
not stable in general; and any `bogoSort` run that terminates under a
random stream with values in `[0, 1)` returns a sorted permutation,
again with no stability guarantee. -/
theorem sort_strategies_correct (l : List Row) :
    (List.Sorted rowLe (mergeSort l) ∧ (mergeSort l).Perm l ∧
      ∀ v : ℚ, (mergeSort l).filter (fun x => decide (keyOf x = v))
        = l.filter (fun x => decide (keyOf x = v))) ∧
    (List.Sorted rowLe (bubbleSort l) ∧ (bubbleSort l).Perm l ∧
      ∀ v : ℚ, (bubbleSort l).filter (fun x => decide (keyOf x = v))
        = l.filter (fun x => decide (keyOf x = v))) ∧
    (List.Sorted rowLe (selectionSort l) ∧ (selectionSort l).Perm l) ∧
    (∀ rand : ℕ → ℚ, (∀ k, 0 ≤ rand k ∧ rand k < 1) →
      ∀ (fuel : ℕ) (out : List Row), bogoSort rand fuel l = some out →
        List.Sorted rowLe out ∧ out.Perm l) := by
  refine ⟨⟨mergeSort_sorted l, mergeSort_perm l, mergeSort_stable l⟩,
    ⟨bubbleSort_sorted l, bubbleSort_perm l, bubbleSort_stable l⟩,
    ⟨selectionSort_sorted l, selectionSort_perm l.length l (le_refl _)⟩, ?_⟩
  intro rand hr fuel out h
  have hgo := bogoGo_sorted_perm rand hr fuel 0 l out h
  exact ⟨(isSorted_eq_sorted out).mp hgo.1, hgo.2⟩

theorem sort_strategies_correct_witness :
    List.Sorted rowLe ([[0, 2], [1, 2], [9, 3]] : List Row) ∧
    ([[0, 2], [1, 2], [9, 3]] : List Row).Perm [[1, 2], [9, 3], [0, 2]] :=
  (sort_strategies_correct [[1, 2], [9, 3], [0, 2]]).2.2.2 (fun _ => 0)
    (fun _ => ⟨le_refl 0, by norm_num⟩) 1 [[0, 2], [1, 2], [9, 3]] bogo_run
